import Mathlib

/-!
# Verification of the takopi bridge core

A shallow embedding of the parts of the `takopi` repository that the
specification's claims are about, together with theorems settling each claim.

Python dictionaries are embedded as insertion-ordered association lists
(`List (String × β)`): assignment updates the first matching key in place or
appends, deletion filters the key out, and lookup returns the first match.
Wall-clock time (`time.time()`) is passed in explicitly as a `Nat` argument
wherever the source calls it.
-/

namespace Takopi

/-- Association-list lookup: `d.get(k)` on an insertion-ordered dict. -/
def lookupA {β : Type} (m : List (String × β)) (k : String) : Option β :=
  match m with
  | [] => none
  | (k', v) :: t => if k' = k then some v else lookupA t k

/-- Association-list assignment: `d[k] = v` — replace the first occurrence in
place, or append when the key is absent (Python dict insertion order). -/
def setA {β : Type} (m : List (String × β)) (k : String) (v : β) :
    List (String × β) :=
  match m with
  | [] => [(k, v)]
  | (k', v') :: t => if k' = k then (k, v) :: t else (k', v') :: setA t k v

/-- Association-list deletion: `del d[k]` / `d.pop(k, None)`. -/
def eraseA {β : Type} (m : List (String × β)) (k : String) : List (String × β) :=
  match m with
  | [] => []
  | (k', v) :: t => if k' = k then eraseA t k else (k', v) :: eraseA t k

/-- Python's `str.strip()`: drop leading and trailing whitespace. -/
def strip (s : String) : String :=
  ⟨((s.data.dropWhile Char.isWhitespace).reverse.dropWhile
      Char.isWhitespace).reverse⟩

/-- Modelled from the spec: `ResumeToken` from `takopi/model.py` (absent from
`src/`): "pair `(engine, value)` where `value` is an id minted by the external
agent"; equality is by both fields. -/
structure ResumeToken where
  engine : String
  value : String
deriving DecidableEq, Repr

/-! ## Session store (`takopi/telegram/chat_sessions.py`) -/

/-- `MAX_SESSIONS_PER_CHAT` from `chat_sessions.py`. -/
def MAX_SESSIONS_PER_CHAT : Nat := 20

/-- `SessionInfo` msgspec struct from `chat_sessions.py`. -/
structure SessionInfo where
  resume : String
  engine : String
  title : Option String := none
  first_message : Option String := none
  created_at : Nat := 0
  updated_at : Nat := 0
deriving DecidableEq, Repr

/-- `_ChatState` from `chat_sessions.py`. The legacy `sessions` field maps an
engine to the old single-session record; the old record's `resume` entry is
kept (`none` stands for an old record that is not a dict or has no `resume`
key). -/
structure ChatState where
  history : List (String × SessionInfo) := []
  active : List (String × String) := []
  sessions : Option (List (String × Option String)) := none
deriving DecidableEq, Repr

/-- `_ChatSessionsState` from `chat_sessions.py`. -/
structure ChatSessionsState where
  version : Nat
  cwd : Option String := none
  chats : List (String × ChatState) := []
deriving DecidableEq, Repr

/-- `_chat_key` from `chat_sessions.py`. -/
def chatKey (chat_id : Int) (owner_id : Option Int) : String :=
  toString chat_id ++ ":" ++ (match owner_id with
    | none => "chat"
    | some o => toString o)

/-- One iteration of the legacy-conversion loop in `_migrate_chat_state`:
`if resume and resume not in chat.history:` add the history entry and register
it as active. -/
def migrateStep (now : Nat) (c : ChatState) (p : String × Option String) : ChatState :=
  match p.2 with
  | some resume =>
    if resume ≠ "" ∧ lookupA c.history resume = none then
      { c with
          history := setA c.history resume ⟨resume, p.1, none, none, now, now⟩,
          active := setA c.active p.1 resume }
    else c
  | none => c

/-- `_migrate_chat_state` from `chat_sessions.py`: convert each legacy
`{engine → {resume: …}}` entry into one history entry and register it as
active, then clear the legacy field. -/
def migrateChatState (now : Nat) (chat : ChatState) : ChatState :=
  match chat.sessions with
  | none => chat
  | some legacy => { legacy.foldl (migrateStep now) chat with sessions := none }

/-- `ChatSessionStore._migrate_if_needed`: migrate every chat. -/
def migrateIfNeeded (now : Nat) (st : ChatSessionsState) : ChatSessionsState :=
  { st with chats := st.chats.map (fun p => (p.1, migrateChatState now p.2)) }

/-- `ChatSessionStore.get_session_resume`. An empty active resume id is falsy
in Python (`if not resume_id`), hence treated as absent. -/
def getSessionResume (st : ChatSessionsState) (chat_id : Int)
    (owner_id : Option Int) (engine : String) (now : Nat) : Option ResumeToken :=
  let st := migrateIfNeeded now st
  match lookupA st.chats (chatKey chat_id owner_id) with
  | none => none
  | some chat =>
    match lookupA chat.active engine with
    | none => none
    | some rid =>
      if rid = "" then none
      else
        match lookupA chat.history rid with
        | none => none
        | some session => some ⟨engine, session.resume⟩

/-- `ChatSessionStore.sync_startup_cwd`. The argument is the already-normalized
path `str(cwd.expanduser().resolve())` (path normalization is an OS call).
Returns the `cleared` flag and the new state. -/
def syncStartupCwd (st : ChatSessionsState) (normalized : String) :
    Bool × ChatSessionsState :=
  let previous := st.cwd
  let cleared : Bool :=
    match previous with
    | none => false
    | some p => p ≠ normalized
  let st1 := if cleared then { st with chats := [] } else st
  let st2 := if previous ≠ some normalized then { st1 with cwd := some normalized } else st1
  (cleared, st2)

/-- Stable insertion into a list sorted by ascending `updated_at`
(an element is placed before the first strictly newer element, after equals —
the order `list.sort(key=…)` produces). -/
def insertByUpdated (x : String × SessionInfo) :
    List (String × SessionInfo) → List (String × SessionInfo)
  | [] => [x]
  | y :: ys =>
    if y.2.updated_at < x.2.updated_at then y :: insertByUpdated x ys
    else x :: y :: ys

/-- Stable sort by ascending `updated_at`: `engine_sessions.sort(key=lambda x:
x[1].updated_at)` in `_prune_sessions_locked`. -/
def sortByUpdated : List (String × SessionInfo) → List (String × SessionInfo)
  | [] => []
  | x :: xs => insertByUpdated x (sortByUpdated xs)

/-- `ChatSessionStore._prune_sessions_locked`: if more than
`MAX_SESSIONS_PER_CHAT` sessions exist for `engine`, delete the oldest
`n - MAX` of them, skipping the currently-active one. -/
def pruneSessions (chat : ChatState) (engine : String) : ChatState :=
  let engineSessions := chat.history.filter (fun p => p.2.engine = engine)
  if engineSessions.length ≤ MAX_SESSIONS_PER_CHAT then chat
  else
    let sorted := sortByUpdated engineSessions
    let toRemove := engineSessions.length - MAX_SESSIONS_PER_CHAT
    let victims := sorted.take toRemove
    { chat with
        history := victims.foldl
          (fun h p =>
            if lookupA chat.active engine ≠ some p.1 then eraseA h p.1 else h)
          chat.history }

/-- The history/active upsert inside `set_session_resume`: update the existing
session's `updated_at` (filling `first_message` only when it was empty), or
create a new `SessionInfo`, then set the engine's active pointer.
`first_message` truthiness and the `[:100]` character slice follow the
source. -/
def upsertInfo (chat : ChatState) (token : ResumeToken)
    (first_message : Option String) (now : Nat) : SessionInfo :=
  match lookupA chat.history token.value with
  | some existing =>
    { existing with
        updated_at := now,
        first_message :=
          match first_message, existing.first_message with
          | some fm, old =>
            if fm ≠ "" ∧ (old = none ∨ old = some "") then some (fm.take 100)
            else old
          | none, old => old }
  | none =>
    { resume := token.value, engine := token.engine,
      first_message :=
        match first_message with
        | some fm => if fm ≠ "" then some (fm.take 100) else none
        | none => none,
      created_at := now, updated_at := now }

def upsertSession (chat : ChatState) (token : ResumeToken)
    (first_message : Option String) (now : Nat) : ChatState :=
  { chat with
      history := setA chat.history token.value
        (upsertInfo chat token first_message now),
      active := setA chat.active token.engine token.value }

/-- `ChatSessionStore.set_session_resume`. `now` is `time.time()`;
`processCwd` is `str(Path.cwd().expanduser().resolve())`, used only when the
stored cwd is unset. -/
def setSessionResume (st : ChatSessionsState) (chat_id : Int)
    (owner_id : Option Int) (token : ResumeToken)
    (first_message : Option String) (now : Nat) (processCwd : String) :
    ChatSessionsState :=
  let st := migrateIfNeeded now st
  let st := if st.cwd = none then { st with cwd := some processCwd } else st
  let key := chatKey chat_id owner_id
  let chat := (lookupA st.chats key).getD {}
  let chat := pruneSessions (upsertSession chat token first_message now) token.engine
  { st with chats := setA st.chats key chat }

/-- Number of history entries for `engine` in the chat stored under `key`. -/
def countEngine (st : ChatSessionsState) (key : String) (engine : String) : Nat :=
  match lookupA st.chats key with
  | none => 0
  | some chat => (chat.history.filter (fun p => p.2.engine = engine)).length

/-! ## Runner (`takopi/runner.py`, `JsonlSubprocessRunner`) -/

/-- Modelled from the spec: the action phase of `ActionEvent` in
`takopi/model.py` (absent from `src/`); spec §3 has `ActionStarted` /
`ActionCompleted` events sharing an action id. -/
inductive Phase where
  | started
  | completed
deriving DecidableEq, Repr

/-- Modelled from the spec: `Action` from `takopi/model.py` (absent from
`src/`): `{ id, kind, title, detail }`; the open-typed `detail` mapping is
embedded as string key/value pairs. -/
structure Action where
  id : String
  kind : String
  title : String
  detail : List (String × String) := []
deriving DecidableEq, Repr

/-- Modelled from the spec: `TakopiEvent` from `takopi/model.py` (absent from
`src/`): the tagged union of `SessionStarted` (`StartedEvent`),
`ActionStarted`/`ActionCompleted` (`ActionEvent` with a phase), and
`Completed` (`CompletedEvent`), with the fields of spec §3. -/
inductive TakopiEvent where
  | session (engine : String) (resume : ResumeToken) (title : Option String)
  | action (engine : String) (act : Action) (phase : Phase) (ok : Bool)
      (message : Option String) (level : String)
  | completed (engine : String) (ok : Bool) (answer : String)
      (resume : Option ResumeToken) (error : Option String)
deriving DecidableEq, Repr

/-- Is this event a `Completed` event? -/
def isCompleted : TakopiEvent → Bool
  | .completed .. => true
  | _ => false

/-- `JsonlSubprocessRunner.note_event` together with `next_note_id`:
bump `note_seq`, mint the id `"{tag}.note.{n}"`, and build a warning
`ActionCompleted`.  Returns the event and the new `note_seq`. -/
def noteEvent (engine tag message : String) (noteSeq : Nat) (ok : Bool)
    (detail : List (String × String)) : TakopiEvent × Nat :=
  let seq := noteSeq + 1
  let noteId := tag ++ ".note." ++ toString seq
  (.action engine ⟨noteId, "warning", message, detail⟩ .completed ok
    (some message) (if ok then "info" else "warning"), seq)

/-- One stdout line of the child, abstracted at the point the runner's loop
consumes it: blank after stripping; JSON that fails to parse
(`decode_jsonl` returns `None`); a line whose decode raised; or a decoded
payload of the engine-specific type `D`. -/
inductive JsonLine (D : Type) where
  | empty
  | invalid (text : String)
  | decodeErr (text : String) (err : String)
  | decoded (text : String) (d : D)

/-- The engine-specific seams of `JsonlSubprocessRunner` that `run_impl`
consumes: `engine`, `tag()`, and `translate` (which receives the runner
state's `note_seq`, the supplied resume and the found session, and either
returns events plus the new `note_seq` or raises). -/
structure JsonlRunner (D : Type) where
  engine : String
  tag : String
  translate : D → Nat → Option ResumeToken → Option ResumeToken →
    Except String (List TakopiEvent × Nat)

/-- `JsonlSubprocessRunner.invalid_json_events`. -/
def invalidJsonEvents {D : Type} (R : JsonlRunner D) (line : String)
    (seq : Nat) : List TakopiEvent × Nat :=
  let r := noteEvent R.engine R.tag
    ("invalid JSON from " ++ R.tag ++ "; ignoring line") seq false
    [("line", line)]
  ([r.1], r.2)

/-- `JsonlSubprocessRunner.decode_error_events`. -/
def decodeErrorEvents {D : Type} (R : JsonlRunner D) (line err : String)
    (seq : Nat) : List TakopiEvent × Nat :=
  let r := noteEvent R.engine R.tag
    ("invalid event from " ++ R.tag ++ "; ignoring line") seq false
    [("line", line), ("error", err)]
  ([r.1], r.2)

/-- `JsonlSubprocessRunner.translate_error_events` (the payload-shape fields
of `detail` are folded into the error string of the abstract payload). -/
def translateErrorEvents {D : Type} (R : JsonlRunner D) (err : String)
    (seq : Nat) : List TakopiEvent × Nat :=
  let r := noteEvent R.engine R.tag
    (R.tag ++ " translation error; ignoring event") seq false
    [("error", err)]
  ([r.1], r.2)

/-- The per-line dispatch of `run_impl`'s loop body: skip blank lines,
synthesize a warning note for undecodable or untranslatable lines, and
otherwise run `translate`.  Returns the events of this line and the new
`note_seq`. -/
def lineEvents {D : Type} (R : JsonlRunner D) (l : JsonLine D) (seq : Nat)
    (resume found : Option ResumeToken) : List TakopiEvent × Nat :=
  match l with
  | .empty => ([], seq)
  | .invalid line => invalidJsonEvents R line seq
  | .decodeErr line err => decodeErrorEvents R line err seq
  | .decoded _ d =>
    match R.translate d seq resume found with
    | .ok r => r
    | .error err => translateErrorEvents R err seq

/-- The session-mismatch message of `handle_started_event`. -/
def mismatchMessage (tag got expectedVal : String) : String :=
  tag ++ " emitted session id " ++ got ++ " but expected " ++ expectedVal

/-- The `found_session` half of `JsonlSubprocessRunner.handle_started_event`:
record and emit the first session id, de-dupe an equal repeat, and fail on a
different one. -/
def handleStartedFound {D : Type} (R : JsonlRunner D) (resume' : ResumeToken)
    (found : Option ResumeToken) : Except String (ResumeToken × Bool) :=
  match found with
  | none => .ok (resume', true)
  | some f =>
    if resume' ≠ f then .error (mismatchMessage R.tag resume'.value f.value)
    else .ok (f, false)

/-- `JsonlSubprocessRunner.handle_started_event`: engine check, then the
expected-session check, then the found-session logic. -/
def handleStartedEvent {D : Type} (R : JsonlRunner D) (engine' : String)
    (resume' : ResumeToken) (expected found : Option ResumeToken) :
    Except String (ResumeToken × Bool) :=
  if engine' ≠ R.engine then
    .error (R.tag ++ " emitted session token for engine " ++ engine')
  else
    match expected with
    | some exp =>
      if resume' ≠ exp then
        .error (mismatchMessage R.tag resume'.value exp.value)
      else handleStartedFound R resume' found
    | none => handleStartedFound R resume' found

/-- The inner `for evt in events` loop of `run_impl`: `SessionStarted`
events go through `handle_started_event` (skipped when told not to emit; a
raise aborts the run), the first `Completed` is yielded and the rest of the
batch dropped, everything else is yielded.  Returns the yielded events, the
new `found_session`, and whether a `Completed` was yielded. -/
def emitEvents {D : Type} (R : JsonlRunner D) (expected : Option ResumeToken) :
    List TakopiEvent → Option ResumeToken →
    Except String (List TakopiEvent × Option ResumeToken × Bool)
  | [], found => .ok ([], found, false)
  | evt :: rest, found =>
    match evt with
    | .session eng r title =>
      match handleStartedEvent R eng r expected found with
      | .error e => .error e
      | .ok (found', emit) =>
        if emit then
          match emitEvents R expected rest found' with
          | .error e => .error e
          | .ok (out, f2, d2) =>
            .ok (TakopiEvent.session eng r title :: out, f2, d2)
        else emitEvents R expected rest found'
    | .completed eng ok ans res err =>
      .ok ([TakopiEvent.completed eng ok ans res err], found, true)
    | .action eng a ph ok msg lvl =>
      match emitEvents R expected rest found with
      | .error e => .error e
      | .ok (out, f2, d2) =>
        .ok (TakopiEvent.action eng a ph ok msg lvl :: out, f2, d2)

/-- The stdout loop of `run_impl`: lines after a yielded `Completed` are
drained but ignored; otherwise each line's events are produced and emitted.
Returns the yielded events, final `note_seq`, `found_session`, and the
`did_emit_completed` flag. -/
def runLines {D : Type} (R : JsonlRunner D) (expected : Option ResumeToken) :
    List (JsonLine D) → Nat → Option ResumeToken → Bool →
    Except String (List TakopiEvent × Nat × Option ResumeToken × Bool)
  | [], seq, found, didComplete => .ok ([], seq, found, didComplete)
  | l :: ls, seq, found, didComplete =>
    if didComplete then runLines R expected ls seq found didComplete
    else
      match lineEvents R l seq expected found with
      | (evs, seq') =>
        match emitEvents R expected evs found with
        | .error e => .error e
        | .ok (out, found', didComplete') =>
          match runLines R expected ls seq' found' didComplete' with
          | .error e => .error e
          | .ok (out2, s2, f2, d2) => .ok (out ++ out2, s2, f2, d2)

/-- Python's `found_session or resume` (a `ResumeToken` instance is always
truthy). -/
def orResume (found resume : Option ResumeToken) : Option ResumeToken :=
  match found with
  | some f => some f
  | none => resume

/-- `JsonlSubprocessRunner.process_error_events`: a warning note plus the
synthetic failure `Completed` carrying `found_session or resume` and the
`rc={code}` message. -/
def processErrorEvents {D : Type} (R : JsonlRunner D) (rc : Int)
    (resume found : Option ResumeToken) (seq : Nat) :
    List TakopiEvent × Nat :=
  let message := R.tag ++ " failed (rc=" ++ toString rc ++ ")."
  let r := noteEvent R.engine R.tag message seq false []
  ([r.1, .completed R.engine false "" (orResume found resume) (some message)],
    r.2)

/-- `JsonlSubprocessRunner.stream_end_events`: the synthetic `Completed` when
the child exits 0 without a terminal event. -/
def streamEndEvents {D : Type} (R : JsonlRunner D)
    (resume found : Option ResumeToken) (seq : Nat) :
    List TakopiEvent × Nat :=
  let message := R.tag ++ " finished without a result event"
  ([.completed R.engine false "" (orResume found resume) (some message)], seq)

/-- `JsonlSubprocessRunner.run_impl` after a successful spawn, as a function
of the child's stdout lines and exit code `rc`: stream the lines, then on
EOF return if a `Completed` was already yielded, else synthesize the
non-zero-exit events or the no-result `Completed`.  `BaseRunner.run` /
`run_locked` forward these events unchanged (locking adds no events), so
this is also the event sequence of `runner.run`.  A `.error` result is the
fatal `RuntimeError` path (no further events are yielded). -/
def runImpl {D : Type} (R : JsonlRunner D) (resume : Option ResumeToken)
    (lines : List (JsonLine D)) (rc : Int) :
    Except String (List TakopiEvent) :=
  match runLines R resume lines 0 none false with
  | .error e => .error e
  | .ok (out, seq, found, didComplete) =>
    if didComplete then .ok out
    else if rc ≠ 0 then
      .ok (out ++ (processErrorEvents R rc resume found seq).1)
    else
      .ok (out ++ (streamEndEvents R resume found seq).1)

/-- A concrete engine seam whose `translate` yields no events (used to
instantiate the runner theorems at concrete inputs). -/
def quietRunner : JsonlRunner Unit :=
  ⟨"codex", "codex", fun _ seq _ _ => .ok ([], seq)⟩

/-- A concrete engine seam whose `translate` yields one successful
`Completed` (the happy path of spec §8(a)). -/
def completingRunner : JsonlRunner Unit :=
  ⟨"codex", "codex", fun _ seq _ _ =>
    .ok ([.completed "codex" true "Hi!" none none], seq)⟩

/-! ## Config migrations (`takopi/config_migrations.py`) -/

/-- A TOML value tree (`dict[str, Any]` from `read_raw_toml`): the value
shapes the migrations inspect (strings, integers, booleans, tables). -/
inductive TomlVal where
  | str (s : String)
  | int (n : Int)
  | boolean (b : Bool)
  | table (kvs : List (String × TomlVal))

/-- `_ensure_table`: fetch `config[key]`, inserting an empty table when the
key is absent and failing when it holds a non-table.  Returns the table's
entries and the (possibly extended) config. -/
def ensureTable (config : List (String × TomlVal)) (key : String) :
    Except String (List (String × TomlVal) × List (String × TomlVal)) :=
  match lookupA config key with
  | none => .ok ([], setA config key (.table []))
  | some (.table t) => .ok (t, config)
  | some _ => .error ("Invalid `" ++ key ++ "`; expected a table.")

/-- The `transports.get("telegram")` read of `_migrate_legacy_telegram`:
default to an empty table, fail on a non-table. -/
def getTelegramTable (transports : List (String × TomlVal)) :
    Except String (List (String × TomlVal)) :=
  match lookupA transports "telegram" with
  | none => .ok []
  | some (.table g) => .ok g
  | some _ => .error "Invalid `transports.telegram`; expected a table."

/-- The mutation tail of `_migrate_legacy_telegram` once the `transports` and
`telegram` tables are in hand: copy `bot_token`/`chat_id` without
overwriting, write the tables back, pop the legacy keys, and default
`transport = "telegram"`. -/
def legacyFinish (config transports telegram : List (String × TomlVal)) :
    List (String × TomlVal) :=
  let telegram :=
    match lookupA config "bot_token", lookupA telegram "bot_token" with
    | some v, none => setA telegram "bot_token" v
    | _, _ => telegram
  let telegram :=
    match lookupA config "chat_id", lookupA telegram "chat_id" with
    | some v, none => setA telegram "chat_id" v
    | _, _ => telegram
  let transports := setA transports "telegram" (.table telegram)
  let config := setA config "transports" (.table transports)
  let config := eraseA config "bot_token"
  let config := eraseA config "chat_id"
  if (lookupA config "transport").isSome then config
  else setA config "transport" (.str "telegram")

/-- `_migrate_legacy_telegram`: move top-level `bot_token`/`chat_id` under
`transports.telegram` (without overwriting), drop the legacy keys, and
default `transport = "telegram"`.  Returns the new config and whether the
migration fired. -/
def migrateLegacyTelegram (config : List (String × TomlVal)) :
    Except String (List (String × TomlVal) × Bool) :=
  if (lookupA config "bot_token").isSome || (lookupA config "chat_id").isSome then
    match ensureTable config "transports" with
    | .error e => .error e
    | .ok (transports, config) =>
      match getTelegramTable transports with
      | .error e => .error e
      | .ok telegram => .ok (legacyFinish config transports telegram, true)
  else .ok (config, false)

/-- The `scope` computation of `_migrate_topics_scope`: keep an existing
`scope`, otherwise translate a valid `mode` string, failing on anything
else. -/
def topicsScopeValue (topics : List (String × TomlVal)) :
    Except String (List (String × TomlVal)) :=
  if (lookupA topics "scope").isSome then .ok topics
  else
    match lookupA topics "mode" with
    | some (.str mode) =>
      let cleaned := strip mode
      if cleaned = "multi_project_chat" then
        .ok (setA topics "scope" (.str "main"))
      else if cleaned = "per_project_chat" then
        .ok (setA topics "scope" (.str "projects"))
      else
        .error "Invalid `transports.telegram.topics.mode`; expected 'multi_project_chat' or 'per_project_chat'."
    | _ => .error "Invalid `transports.telegram.topics.mode`; expected a string."

/-- The mutation tail of `_migrate_topics_scope`: pop `mode` and write the
updated tables back up the tree. -/
def topicsFinish (config transports telegram topics : List (String × TomlVal)) :
    List (String × TomlVal) :=
  let topics := eraseA topics "mode"
  let telegram := setA telegram "topics" (.table topics)
  let transports := setA transports "telegram" (.table telegram)
  setA config "transports" (.table transports)

/-- `_migrate_topics_scope`: translate a legacy
`transports.telegram.topics.mode` into `topics.scope` (unless `scope` is
already present) and drop `mode`.  Returns the new config and whether the
migration fired. -/
def migrateTopicsScope (config : List (String × TomlVal)) :
    Except String (List (String × TomlVal) × Bool) :=
  match lookupA config "transports" with
  | none => .ok (config, false)
  | some (.table transports) =>
    match lookupA transports "telegram" with
    | none => .ok (config, false)
    | some (.table telegram) =>
      match lookupA telegram "topics" with
      | none => .ok (config, false)
      | some (.table topics) =>
        if (lookupA topics "mode").isSome then
          match topicsScopeValue topics with
          | .error e => .error e
          | .ok topics =>
            .ok (topicsFinish config transports telegram topics, true)
        else .ok (config, false)
      | some _ =>
        .error "Invalid `transports.telegram.topics`; expected a table."
    | some _ => .error "Invalid `transports.telegram`; expected a table."
  | some _ => .error "Invalid `transports`; expected a table."

/-- `migrate_config`: run both migrations in order and record which fired. -/
def migrateConfig (config : List (String × TomlVal)) :
    Except String (List (String × TomlVal) × List String) :=
  match migrateLegacyTelegram config with
  | .error e => .error e
  | .ok (config, b1) =>
    match migrateTopicsScope config with
    | .error e => .error e
    | .ok (config, b2) =>
      .ok (config,
        (if b1 then ["legacy-telegram"] else []) ++
        (if b2 then ["topics-scope"] else []))

/-! ## Progress renderer (`codex_telegram_bridge/exec_render.py`) -/

/-- A `collections.deque(maxlen=…)` append: when the deque is full the
oldest entries fall off the left. -/
def dequePush (maxlen : Nat) (q : List String) (x : String) : List String :=
  let q' := q ++ [x]
  if maxlen < q'.length then q'.drop (q'.length - maxlen) else q'

/-- The default bound of `ExecProgressRenderer.__init__` (`max_lines: int =
4`; `ExecRenderState.recent` likewise defaults to `deque(maxlen=4)`). -/
def defaultMaxLines : Nat := 4

/-- `ExecProgressRenderer.note_event` restricted to its effect on the
`recent` deque.  `renderLine` stands for `render_event_progress`, which
returns an optional line and never touches `recent` (it only records items);
the falsiness checks and `strip()` follow the source. -/
def noteEventLine {E : Type} (renderLine : E → Option String) (maxlen : Nat)
    (recent : List String) (e : E) : Option String × List String :=
  match renderLine e with
  | none => (none, recent)
  | some line0 =>
    if line0 = "" then (none, recent)
    else
      let line := strip line0
      if line = "" then (none, recent)
      else if recent ≠ [] ∧ recent.getLast? = some line then (some line, recent)
      else (some line, dequePush maxlen recent line)

/-- Feeding a sequence of events to a fresh `ExecProgressRenderer(maxlen)`:
the final contents of `recent`. -/
def runRenderer {E : Type} (renderLine : E → Option String) (maxlen : Nat)
    (events : List E) : List String :=
  events.foldl (fun recent e => (noteEventLine renderLine maxlen recent e).2) []

/-! ## Token redaction (`takopi/logging.py`, `RedactTokenFilter`)

The two compiled patterns are `bot\\d+:[A-Za-z0-9_-]+` and
`\\b\\d+:[A-Za-z0-9_-]{10,}\\b`, applied with `re.sub` in that order.  The
embedding implements `re.sub`'s scan (leftmost match, greedy quantifiers,
continue after the match) character by character; `\\d`/`\\w` are taken over
ASCII, the alphabet of Telegram tokens. -/

/-- `[A-Za-z0-9_-]`. -/
def isClassChar (c : Char) : Bool :=
  c.isAlpha || c.isDigit || c = '_' || c = '-'

/-- `\\w` = `[A-Za-z0-9_]`. -/
def isWordChar (c : Char) : Bool :=
  c.isAlpha || c.isDigit || c = '_'

/-- The `\\b` test before a word character: true at the string start or after
a non-word character. -/
def boundaryOk (prev : Option Char) : Bool :=
  match prev with
  | none => true
  | some p => !isWordChar p

/-- The `\\d+:[A-Za-z0-9_-]+` tail of the token pattern, at the head of
`rest`: the length it consumes, or `none`. -/
def tokenTail (rest : List Char) : Option Nat :=
  let digits := rest.takeWhile Char.isDigit
  if digits.length = 0 then none
  else
    match rest.drop digits.length with
    | x :: rest2 =>
      if x = ':' then
        let cls := rest2.takeWhile isClassChar
        if cls.length = 0 then none else some (digits.length + 1 + cls.length)
      else none
    | [] => none

/-- A `bot\\d+:[A-Za-z0-9_-]+` match at the head of `cs`: the matched length,
or `none`. -/
def tryToken (cs : List Char) : Option Nat :=
  match cs with
  | c :: d :: e :: rest =>
    if c = 'b' ∧ d = 'o' ∧ e = 't' then (tokenTail rest).map (fun n => 3 + n)
    else none
  | _ => none

/-- `"bot[REDACTED]"`, the replacement of `TELEGRAM_TOKEN_RE.sub`. -/
def replToken : List Char := "bot[REDACTED]".data

/-- `"[REDACTED_TOKEN]"`, the replacement of `TELEGRAM_BARE_TOKEN_RE.sub`. -/
def replBare : List Char := "[REDACTED_TOKEN]".data

/-- `TELEGRAM_TOKEN_RE.sub("bot[REDACTED]", ·)`: the scan of `re.sub`.  A
match of length `n ≥ 1` consumes its first character and `n - 1` more. -/
def subToken : List Char → List Char
  | [] => []
  | c :: cs =>
    match tryToken (c :: cs) with
    | some n => replToken ++ subToken (cs.drop (n - 1))
    | none => c :: subToken cs
termination_by cs => cs.length
decreasing_by
  · simp only [List.length_cons, List.length_drop]
    omega
  · simp

/-- Does any suffix of `cs` begin with a `bot\\d+:[A-Za-z0-9_-]+` match? -/
def containsToken : List Char → Bool
  | [] => false
  | c :: cs => (tryToken (c :: cs)).isSome || containsToken cs

/-- Is `k` a valid end for the `{10,}` run (the trailing `\\b` of the bare
pattern)?  The cut the backtracking engine settles on is the largest `k` with
`run[k-1]` a word character and position `k` at the run's end or before a
`'-'` (the first `\\w`-transition found scanning down from the greedy
maximum). -/
def cutValid (run : List Char) (k : Nat) : Bool :=
  decide (10 ≤ k) &&
  (match run[k - 1]? with
   | some c => c ≠ '-'
   | none => false) &&
  (decide (k = run.length) ||
   (match run[k]? with
    | some c => c = '-'
    | none => false))

/-- Greedy backtracking over the class run: the largest valid cut `≤ m`. -/
def findCut (run : List Char) : Nat → Option Nat
  | 0 => none
  | k + 1 => if cutValid run (k + 1) then some (k + 1) else findCut run k

/-- The boundary-free part of the bare pattern
`\\d+:[A-Za-z0-9_-]{10,}\\b` at the head of `cs`: the matched length, or
`none`. -/
def patternBare (cs : List Char) : Option Nat :=
  let digits := cs.takeWhile Char.isDigit
  if digits.length = 0 then none
  else
    match cs.drop digits.length with
    | x :: rest2 =>
      if x = ':' then
        let run := rest2.takeWhile isClassChar
        match findCut run run.length with
        | some k => some (digits.length + 1 + k)
        | none => none
      else none
    | [] => none

/-- A `\\b\\d+:[A-Za-z0-9_-]{10,}\\b` match at the head of `cs`, where `prev`
is the character before `cs` in the scanned string (`none` at the start). -/
def tryBare (prev : Option Char) (cs : List Char) : Option Nat :=
  if boundaryOk prev then patternBare cs else none

/-- `TELEGRAM_BARE_TOKEN_RE.sub("[REDACTED_TOKEN]", ·)`: the scan of
`re.sub`, tracking the previous character of the scanned string for `\\b`
(after a match, the last character of the matched region). -/
def subBare (prev : Option Char) : List Char → List Char
  | [] => []
  | c :: cs =>
    match tryBare prev (c :: cs) with
    | some n => replBare ++ subBare (c :: cs)[n - 1]? (cs.drop (n - 1))
    | none => c :: subBare (some c) cs
termination_by cs => cs.length
decreasing_by
  · simp only [List.length_cons, List.length_drop]
    omega
  · simp

/-- Does any suffix of `cs` begin with a bare-token match, scanning with the
proper previous character? -/
def containsBare (prev : Option Char) : List Char → Bool
  | [] => false
  | c :: cs => (tryBare prev (c :: cs)).isSome || containsBare (some c) cs

/-- The redaction applied by `RedactTokenFilter.filter`: the token
substitution, then the bare substitution. -/
def redactMessage (s : String) : String :=
  ⟨subBare none (subToken s.data)⟩

/-- `RedactTokenFilter.filter`: always keeps the record (returns `True`);
`none` models a record whose `getMessage` raises `TypeError`/`ValueError`
(left untouched); otherwise the rendered message is redacted. -/
def redactFilter (formatted : Option String) : Bool × Option String :=
  match formatted with
  | none => (true, none)
  | some message => (true, some (redactMessage message))

/-! ### Association-list lemmas -/

@[simp] theorem lookupA_nil {β : Type} (k : String) :
    lookupA ([] : List (String × β)) k = none := rfl

theorem lookupA_cons {β : Type} (k' k : String) (v : β) (t : List (String × β)) :
    lookupA ((k', v) :: t) k = if k' = k then some v else lookupA t k := rfl

@[simp] theorem lookupA_setA_self {β : Type} (m : List (String × β)) (k : String) (v : β) :
    lookupA (setA m k v) k = some v := by
  induction m with
  | nil => simp [setA, lookupA]
  | cons p t ih =>
    obtain ⟨k', v'⟩ := p
    by_cases h : k' = k
    · simp [setA, h, lookupA]
    · simp [setA, h, lookupA, ih]

theorem lookupA_setA_ne {β : Type} (m : List (String × β)) (k k' : String) (v : β)
    (h : k ≠ k') : lookupA (setA m k v) k' = lookupA m k' := by
  induction m with
  | nil => simp [setA, lookupA, h]
  | cons p t ih =>
    obtain ⟨k₀, v₀⟩ := p
    by_cases h0 : k₀ = k
    · subst h0
      simp [setA, lookupA, h]
    · simp [setA, h0, lookupA, ih]

theorem lookupA_eraseA_self {β : Type} (m : List (String × β)) (k : String) :
    lookupA (eraseA m k) k = none := by
  induction m with
  | nil => rfl
  | cons p t ih =>
    obtain ⟨k₀, v₀⟩ := p
    by_cases h0 : k₀ = k
    · simpa [eraseA, h0] using ih
    · simpa [eraseA, h0, lookupA] using ih

theorem lookupA_eraseA_ne {β : Type} (m : List (String × β)) (k k' : String)
    (h : k ≠ k') : lookupA (eraseA m k) k' = lookupA m k' := by
  induction m with
  | nil => rfl
  | cons p t ih =>
    obtain ⟨k₀, v₀⟩ := p
    by_cases h0 : k₀ = k
    · subst h0
      simp [eraseA, lookupA, h, ih]
    · by_cases h1 : k₀ = k'
      · simp [eraseA, h0, lookupA, h1, Ne.symm h]
      · simp [eraseA, h0, lookupA, h1, ih]

theorem eraseA_sublist {β : Type} (m : List (String × β)) (k : String) :
    List.Sublist (eraseA m k) m := by
  induction m with
  | nil => exact List.Sublist.refl _
  | cons p t ih =>
    obtain ⟨k₀, v₀⟩ := p
    by_cases h0 : k₀ = k
    · rw [show eraseA ((k₀, v₀) :: t) k = eraseA t k from by simp [eraseA, h0]]
      exact ih.cons (k₀, v₀)
    · rw [show eraseA ((k₀, v₀) :: t) k = (k₀, v₀) :: eraseA t k from by
        simp [eraseA, h0]]
      exact ih.cons₂ (k₀, v₀)

theorem mem_eraseA_of_ne {β : Type} {m : List (String × β)} {k : String}
    {q : String × β} (hq : q ∈ m) (hne : q.1 ≠ k) : q ∈ eraseA m k := by
  induction m with
  | nil => cases hq
  | cons p t ih =>
    obtain ⟨k₀, v₀⟩ := p
    rcases List.mem_cons.mp hq with h' | h'
    · subst h'
      simp only [eraseA, if_neg hne]
      exact List.mem_cons_self _ _
    · by_cases h0 : k₀ = k
      · simpa [eraseA, h0] using ih h'
      · simp only [eraseA, if_neg h0]
        exact List.mem_cons_of_mem _ (ih h')

theorem eraseA_of_not_mem {β : Type} {m : List (String × β)} {k : String}
    (h : k ∉ m.map Prod.fst) : eraseA m k = m := by
  induction m with
  | nil => rfl
  | cons p t ih =>
    obtain ⟨k₀, v₀⟩ := p
    simp only [List.map_cons, List.mem_cons] at h
    push_neg at h
    simp only [eraseA, if_neg (by simpa using (Ne.symm h.1))]
    rw [ih h.2]

theorem keys_setA {β : Type} (m : List (String × β)) (k : String) (v : β) :
    (setA m k v).map Prod.fst =
      if k ∈ m.map Prod.fst then m.map Prod.fst else m.map Prod.fst ++ [k] := by
  induction m with
  | nil => simp [setA]
  | cons p t ih =>
    obtain ⟨k₀, v₀⟩ := p
    by_cases h0 : k₀ = k
    · subst h0
      simp [setA]
    · by_cases hmem : k ∈ t.map Prod.fst
      · simp [setA, h0, Ne.symm h0, hmem, ih]
      · simp [setA, h0, Ne.symm h0, hmem, ih]

theorem keys_nodup_setA {β : Type} {m : List (String × β)} {k : String} {v : β}
    (h : (m.map Prod.fst).Nodup) : ((setA m k v).map Prod.fst).Nodup := by
  rw [keys_setA]
  by_cases hmem : k ∈ m.map Prod.fst
  · simpa [hmem] using h
  · simp [hmem, List.nodup_append, h]

theorem mem_setA_self_key {β : Type} {m : List (String × β)} {k : String} {v : β}
    {q : String × β} (hnd : (m.map Prod.fst).Nodup) (hq : q ∈ setA m k v)
    (hk : q.1 = k) : q = (k, v) := by
  induction m with
  | nil =>
    simpa [setA] using hq
  | cons p t ih =>
    obtain ⟨k₀, v₀⟩ := p
    rw [List.map_cons] at hnd
    have hnd' := List.nodup_cons.mp hnd
    by_cases h0 : k₀ = k
    · subst h0
      have hset : setA ((k₀, v₀) :: t) k₀ v = (k₀, v) :: t := by
        simp [setA]
      rw [hset] at hq
      rcases List.mem_cons.mp hq with h' | h'
      · exact h'
      · have hmm : q.1 ∈ t.map Prod.fst := List.mem_map_of_mem Prod.fst h'
        rw [hk] at hmm
        exact absurd hmm hnd'.1
    · have hset : setA ((k₀, v₀) :: t) k v = (k₀, v₀) :: setA t k v := by
        simp [setA, h0]
      rw [hset] at hq
      rcases List.mem_cons.mp hq with h' | h'
      · exfalso
        apply h0
        rw [← hk, h']
      · exact ih hnd'.2 h'

/-! ### Helper lemmas about the store operations -/

theorem lookupA_mem {β : Type} {m : List (String × β)} {k : String} {v : β}
    (h : lookupA m k = some v) : (k, v) ∈ m := by
  induction m with
  | nil => simp [lookupA] at h
  | cons p t ih =>
    obtain ⟨k₀, v₀⟩ := p
    by_cases h0 : k₀ = k
    · subst h0
      simp [lookupA] at h
      simp [h]
    · simp [lookupA, h0] at h
      exact List.mem_cons_of_mem _ (ih h)

theorem mem_setA {β : Type} {m : List (String × β)} {k : String} {v : β} {q : String × β}
    (h : q ∈ setA m k v) : q = (k, v) ∨ q ∈ m := by
  induction m with
  | nil => simpa [setA] using h
  | cons p t ih =>
    obtain ⟨k₀, v₀⟩ := p
    by_cases h0 : k₀ = k
    · subst h0
      simp [setA] at h
      rcases h with h | h
      · exact Or.inl h
      · exact Or.inr (List.mem_cons_of_mem _ h)
    · simp [setA, h0] at h
      rcases h with h | h
      · exact Or.inr (by simp [h])
      · rcases ih h with h' | h'
        · exact Or.inl h'
        · exact Or.inr (List.mem_cons_of_mem _ h')

theorem sessions_migrateChatState (now : Nat) (c : ChatState) :
    (migrateChatState now c).sessions = none := by
  unfold migrateChatState
  cases h : c.sessions with
  | none => simpa using h
  | some legacy => rfl

theorem migrateChatState_of_sessions_none {now : Nat} {c : ChatState}
    (h : c.sessions = none) : migrateChatState now c = c := by
  unfold migrateChatState
  rw [h]

theorem migrateIfNeeded_id {now : Nat} {st : ChatSessionsState}
    (h : ∀ p ∈ st.chats, p.2.sessions = none) : migrateIfNeeded now st = st := by
  unfold migrateIfNeeded
  suffices hmap : ∀ (l : List (String × ChatState)), (∀ p ∈ l, p.2.sessions = none) →
      l.map (fun p => (p.1, migrateChatState now p.2)) = l by
    rw [hmap st.chats h]
  intro l
  induction l with
  | nil => intro _; rfl
  | cons q t ih =>
    intro hl
    have hq : q.2.sessions = none := hl q (by simp)
    have ht : ∀ p ∈ t, p.2.sessions = none :=
      fun p hp => hl p (List.mem_cons_of_mem _ hp)
    simp only [List.map_cons, migrateChatState_of_sessions_none hq, ih ht]

/-- Key consistency of a history map: each `SessionInfo` records the resume id
it is stored under ("`resume` is the identity"). -/
def HistoryWF (h : List (String × SessionInfo)) : Prop :=
  ∀ p ∈ h, p.2.resume = p.1

theorem historyWF_migrateStep {now : Nat} {c : ChatState} {p : String × Option String}
    (h : HistoryWF c.history) : HistoryWF (migrateStep now c p).history := by
  obtain ⟨eng, val⟩ := p
  cases val with
  | none => exact h
  | some resume =>
    simp only [migrateStep]
    by_cases hcond : resume ≠ "" ∧ lookupA c.history resume = none
    · rw [if_pos hcond]
      intro q hq
      rcases mem_setA hq with h' | h'
      · subst h'; rfl
      · exact h q h'
    · rw [if_neg hcond]
      exact h

theorem historyWF_migrateChatState {now : Nat} {c : ChatState}
    (h : HistoryWF c.history) : HistoryWF (migrateChatState now c).history := by
  unfold migrateChatState
  cases hs : c.sessions with
  | none => exact h
  | some legacy =>
    simp only
    suffices hgen : ∀ (l : List (String × Option String)) (c0 : ChatState),
        HistoryWF c0.history →
        HistoryWF (l.foldl (migrateStep now) c0).history by
      exact hgen legacy c h
    intro l
    induction l with
    | nil => intro c0 h0; exact h0
    | cons q t ih =>
      intro c0 h0
      exact ih _ (historyWF_migrateStep h0)

theorem sessions_pruneSessions (c : ChatState) (e : String) :
    (pruneSessions c e).sessions = c.sessions := by
  by_cases h : (c.history.filter (fun p => p.2.engine = e)).length ≤ MAX_SESSIONS_PER_CHAT
  · simp [pruneSessions, h]
  · simp [pruneSessions, h]

theorem active_pruneSessions (c : ChatState) (e : String) :
    (pruneSessions c e).active = c.active := by
  by_cases h : (c.history.filter (fun p => p.2.engine = e)).length ≤ MAX_SESSIONS_PER_CHAT
  · simp [pruneSessions, h]
  · simp [pruneSessions, h]

theorem lookupA_foldl_erase_guard (chat : ChatState) (engine rid : String)
    (hactive : lookupA chat.active engine = some rid) :
    ∀ (vs : List (String × SessionInfo)) (h : List (String × SessionInfo)),
      lookupA (vs.foldl (fun h p =>
        if lookupA chat.active engine ≠ some p.1 then eraseA h p.1 else h) h) rid
      = lookupA h rid := by
  intro vs
  induction vs with
  | nil => intro h; rfl
  | cons p t ih =>
    intro h
    rw [List.foldl_cons, ih]
    by_cases hg : lookupA chat.active engine ≠ some p.1
    · rw [if_pos hg]
      have hne : p.1 ≠ rid := by
        intro he
        exact hg (by rw [he, hactive])
      exact lookupA_eraseA_ne h p.1 rid hne
    · rw [if_neg hg]

theorem lookupA_pruneSessions_history (chat : ChatState) (engine rid : String)
    (hactive : lookupA chat.active engine = some rid) :
    lookupA (pruneSessions chat engine).history rid = lookupA chat.history rid := by
  by_cases h : (chat.history.filter (fun p => p.2.engine = engine)).length ≤
      MAX_SESSIONS_PER_CHAT
  · simp [pruneSessions, h]
  · simp only [pruneSessions, h, if_neg, not_false_iff]
    exact lookupA_foldl_erase_guard chat engine rid hactive _ _

theorem sessions_upsertSession (chat : ChatState) (token : ResumeToken)
    (fm : Option String) (now : Nat) :
    (upsertSession chat token fm now).sessions = chat.sessions := rfl

theorem active_upsertSession (chat : ChatState) (token : ResumeToken)
    (fm : Option String) (now : Nat) :
    (upsertSession chat token fm now).active
      = setA chat.active token.engine token.value := rfl

theorem lookupA_upsertSession_self (chat : ChatState) (token : ResumeToken)
    (fm : Option String) (now : Nat) :
    lookupA (upsertSession chat token fm now).history token.value
      = some (upsertInfo chat token fm now) :=
  lookupA_setA_self ..

theorem upsertInfo_updated_at (chat : ChatState) (token : ResumeToken)
    (fm : Option String) (now : Nat) :
    (upsertInfo chat token fm now).updated_at = now := by
  unfold upsertInfo
  cases lookupA chat.history token.value with
  | none => rfl
  | some existing => rfl

theorem upsertInfo_resume (chat : ChatState) (token : ResumeToken)
    (fm : Option String) (now : Nat)
    (h : ∀ ex, lookupA chat.history token.value = some ex →
      ex.resume = token.value) :
    (upsertInfo chat token fm now).resume = token.value := by
  unfold upsertInfo
  cases hex : lookupA chat.history token.value with
  | none => rfl
  | some existing => exact h existing hex

theorem sessions_none_migrateIfNeeded (now : Nat) (st : ChatSessionsState) :
    ∀ p ∈ (migrateIfNeeded now st).chats, p.2.sessions = none := by
  intro p hp
  unfold migrateIfNeeded at hp
  simp only [List.mem_map] at hp
  obtain ⟨q, _, hq⟩ := hp
  rw [← hq]
  exact sessions_migrateChatState now q.2

theorem historyWF_migrateIfNeeded {now : Nat} {st : ChatSessionsState}
    (h : ∀ c ∈ st.chats, HistoryWF c.2.history) :
    ∀ c ∈ (migrateIfNeeded now st).chats, HistoryWF c.2.history := by
  intro c hc
  unfold migrateIfNeeded at hc
  simp only [List.mem_map] at hc
  obtain ⟨q, hq, hqc⟩ := hc
  rw [← hqc]
  exact historyWF_migrateChatState (h q hq)

/-! ### Sorting and pruning lemmas -/

theorem insertByUpdated_perm (x : String × SessionInfo)
    (l : List (String × SessionInfo)) :
    List.Perm (insertByUpdated x l) (x :: l) := by
  induction l with
  | nil => exact List.Perm.refl _
  | cons y ys ih =>
    unfold insertByUpdated
    by_cases h : y.2.updated_at < x.2.updated_at
    · rw [if_pos h]
      exact (ih.cons y).trans (List.Perm.swap x y ys)
    · rw [if_neg h]

theorem sortByUpdated_perm (l : List (String × SessionInfo)) :
    List.Perm (sortByUpdated l) l := by
  induction l with
  | nil => exact List.Perm.refl _
  | cons x xs ih =>
    exact (insertByUpdated_perm x (sortByUpdated xs)).trans (ih.cons x)

theorem insertByUpdated_pairwise (x : String × SessionInfo)
    (l : List (String × SessionInfo))
    (h : l.Pairwise (fun a b => a.2.updated_at ≤ b.2.updated_at)) :
    (insertByUpdated x l).Pairwise (fun a b => a.2.updated_at ≤ b.2.updated_at) := by
  induction l with
  | nil => simp [insertByUpdated]
  | cons y ys ih =>
    rcases List.pairwise_cons.mp h with ⟨hy, hys⟩
    unfold insertByUpdated
    by_cases hlt : y.2.updated_at < x.2.updated_at
    · rw [if_pos hlt]
      refine List.pairwise_cons.mpr ⟨?_, ih hys⟩
      intro b hb
      have hb' : b ∈ x :: ys := (insertByUpdated_perm x ys).mem_iff.mp hb
      rcases List.mem_cons.mp hb' with rfl | hbys
      · exact Nat.le_of_lt hlt
      · exact hy b hbys
    · rw [if_neg hlt]
      refine List.pairwise_cons.mpr ⟨?_, h⟩
      intro b hb
      rcases List.mem_cons.mp hb with rfl | hbys
      · exact Nat.le_of_not_lt hlt
      · exact Nat.le_trans (Nat.le_of_not_lt hlt) (hy b hbys)

theorem sortByUpdated_pairwise (l : List (String × SessionInfo)) :
    (sortByUpdated l).Pairwise (fun a b => a.2.updated_at ≤ b.2.updated_at) := by
  induction l with
  | nil => simp [sortByUpdated]
  | cons x xs ih => exact insertByUpdated_pairwise x (sortByUpdated xs) ih

theorem filter_eraseA_length (engine : String) :
    ∀ (h : List (String × SessionInfo)) (k : String) (s : SessionInfo),
      (h.map Prod.fst).Nodup → (k, s) ∈ h → s.engine = engine →
      ((eraseA h k).filter (fun p => p.2.engine = engine)).length
        = (h.filter (fun p => p.2.engine = engine)).length - 1 := by
  intro h
  induction h with
  | nil => intro k s _ hmem _; cases hmem
  | cons p t ih =>
    intro k s hnd hmem heng
    obtain ⟨k₀, v₀⟩ := p
    rw [List.map_cons] at hnd
    have hnd' := List.nodup_cons.mp hnd
    by_cases h0 : k₀ = k
    · subst h0
      have hps : v₀ = s := by
        rcases List.mem_cons.mp hmem with h' | h'
        · injection h' with _ h2
          exact h2.symm
        · exfalso
          have hk0 : (k₀, s).1 ∈ t.map Prod.fst := List.mem_map_of_mem Prod.fst h'
          exact hnd'.1 hk0
      subst hps
      have h1 : eraseA ((k₀, v₀) :: t) k₀ = eraseA t k₀ := by simp [eraseA]
      rw [h1, eraseA_of_not_mem hnd'.1, List.filter_cons, if_pos (by simp [heng])]
      simp
    · have herase : eraseA ((k₀, v₀) :: t) k = (k₀, v₀) :: eraseA t k := by
        simp [eraseA, h0]
      have hmem' : (k, s) ∈ t := by
        rcases List.mem_cons.mp hmem with h' | h'
        · injection h' with h1 _
          exact absurd h1.symm h0
        · exact h'
      have ihh := ih k s hnd'.2 hmem' heng
      have hpos : 0 < (t.filter (fun p => p.2.engine = engine)).length := by
        have : (k, s) ∈ t.filter (fun p => p.2.engine = engine) :=
          List.mem_filter.mpr ⟨hmem', by simp [heng]⟩
        exact List.length_pos.mpr (List.ne_nil_of_mem this)
      rw [herase, List.filter_cons, List.filter_cons]
      by_cases hp : v₀.engine = engine
      · rw [if_pos (by simp [hp]), if_pos (by simp [hp])]
        simp only [List.length_cons, ihh]
        omega
      · rw [if_neg (by simp [hp]), if_neg (by simp [hp])]
        exact ihh

theorem fold_erase_count (engine : String) (a : Option String) :
    ∀ (vs h : List (String × SessionInfo)),
      (h.map Prod.fst).Nodup →
      (vs.map Prod.fst).Nodup →
      (∀ v ∈ vs, v ∈ h) →
      (∀ v ∈ vs, v.2.engine = engine) →
      (∀ v ∈ vs, a ≠ some v.1) →
      ((vs.foldl (fun acc p => if a ≠ some p.1 then eraseA acc p.1 else acc)
          h).filter (fun p => p.2.engine = engine)).length
        = (h.filter (fun p => p.2.engine = engine)).length - vs.length := by
  intro vs
  induction vs with
  | nil => intro h _ _ _ _ _; simp
  | cons v t ih =>
    intro h hnd hvnd hmem heng hga
    rw [List.foldl_cons, if_pos (hga v (List.mem_cons_self v t))]
    rw [List.map_cons] at hvnd
    have hvnd' := List.nodup_cons.mp hvnd
    have hv : v ∈ h := hmem v (List.mem_cons_self v t)
    have hnd'' : ((eraseA h v.1).map Prod.fst).Nodup :=
      List.Nodup.sublist ((eraseA_sublist h v.1).map Prod.fst) hnd
    have hmem' : ∀ w ∈ t, w ∈ eraseA h v.1 := by
      intro w hw
      refine mem_eraseA_of_ne (hmem w (List.mem_cons_of_mem v hw)) ?_
      intro he
      exact hvnd'.1 (he ▸ List.mem_map_of_mem Prod.fst hw)
    have heng' : ∀ w ∈ t, w.2.engine = engine :=
      fun w hw => heng w (List.mem_cons_of_mem v hw)
    have hga' : ∀ w ∈ t, a ≠ some w.1 :=
      fun w hw => hga w (List.mem_cons_of_mem v hw)
    rw [ih (eraseA h v.1) hnd'' hvnd'.2 hmem' heng' hga']
    rw [filter_eraseA_length engine h v.1 v.2 hnd hv
      (heng v (List.mem_cons_self v t))]
    simp only [List.length_cons]
    omega

theorem pruneSessions_count_le (chat : ChatState) (engine tv : String) (now : Nat)
    (hnodup : (chat.history.map Prod.fst).Nodup)
    (hactive : lookupA chat.active engine = some tv)
    (hothers : ∀ p ∈ chat.history, p.1 ≠ tv → p.2.engine = engine →
      p.2.updated_at < now)
    (htv : ∀ p ∈ chat.history, p.1 = tv → now ≤ p.2.updated_at) :
    ((pruneSessions chat engine).history.filter
        (fun p => p.2.engine = engine)).length ≤ MAX_SESSIONS_PER_CHAT := by
  have hmax : MAX_SESSIONS_PER_CHAT = 20 := rfl
  by_cases hle : (chat.history.filter (fun p => p.2.engine = engine)).length ≤
      MAX_SESSIONS_PER_CHAT
  · simp [pruneSessions, hle]
  · simp only [pruneSessions, hle, if_neg, not_false_iff]
    have hngt : MAX_SESSIONS_PER_CHAT <
        (chat.history.filter (fun p => p.2.engine = engine)).length :=
      Nat.lt_of_not_le hle
    have hperm := sortByUpdated_perm (chat.history.filter (fun p => p.2.engine = engine))
    have hpair := sortByUpdated_pairwise (chat.history.filter (fun p => p.2.engine = engine))
    have hsortlen := hperm.length_eq
    have hes_nd : ((chat.history.filter (fun p => p.2.engine = engine)).map
        Prod.fst).Nodup :=
      List.Nodup.sublist ((List.filter_sublist _).map Prod.fst) hnodup
    have hsorted_nd : ((sortByUpdated (chat.history.filter
        (fun p => p.2.engine = engine))).map Prod.fst).Nodup :=
      ((hperm.map Prod.fst).nodup_iff).mpr hes_nd
    set es := chat.history.filter (fun p => p.2.engine = engine) with hes
    set sorted := sortByUpdated es with hsortedeq
    set k := es.length - MAX_SESSIONS_PER_CHAT with hk
    -- every victim has a key different from the active resume id
    have victims_ne : ∀ v ∈ sorted.take k, v.1 ≠ tv := by
      intro v hv hveq
      have hsplit : sorted.take k ++ sorted.drop k = sorted :=
        List.take_append_drop k sorted
      have hdroplen : (sorted.drop k).length = sorted.length - k :=
        List.length_drop ..
      have hdrop_pos : 0 < (sorted.drop k).length := by
        rw [hdroplen, hsortlen]
        omega
      obtain ⟨w, hw⟩ := List.exists_mem_of_length_pos hdrop_pos
      have hpair2 : (sorted.take k ++ sorted.drop k).Pairwise
          (fun a b => a.2.updated_at ≤ b.2.updated_at) := by
        rw [hsplit]
        exact hpair
      have hle_vw : v.2.updated_at ≤ w.2.updated_at :=
        (List.pairwise_append.mp hpair2).2.2 v hv w hw
      have hw_es : w ∈ es := hperm.mem_iff.mp (List.drop_subset k sorted hw)
      have hv_es : v ∈ es := hperm.mem_iff.mp (List.take_subset k sorted hv)
      by_cases hw1 : w.1 = tv
      · have hnd2 : ((sorted.take k).map Prod.fst ++
            (sorted.drop k).map Prod.fst).Nodup := by
          rw [← List.map_append, hsplit]
          exact hsorted_nd
        have hdisj := List.disjoint_of_nodup_append hnd2
        refine hdisj (List.mem_map_of_mem Prod.fst hv) ?_
        rw [hveq, ← hw1]
        exact List.mem_map_of_mem Prod.fst hw
      · rw [hes] at hw_es hv_es
        have hw_hist : w ∈ chat.history := (List.mem_filter.mp hw_es).1
        have hw_eng : w.2.engine = engine :=
          of_decide_eq_true (List.mem_filter.mp hw_es).2
        have hw_lt : w.2.updated_at < now := hothers w hw_hist hw1 hw_eng
        have hv_hist : v ∈ chat.history := (List.mem_filter.mp hv_es).1
        have hv_ge : now ≤ v.2.updated_at := htv v hv_hist hveq
        omega
    have victims_nd : ((sorted.take k).map Prod.fst).Nodup :=
      List.Nodup.sublist ((List.take_sublist k sorted).map Prod.fst) hsorted_nd
    have victims_hist : ∀ v ∈ sorted.take k, v ∈ chat.history := by
      intro v hv
      have hv_es : v ∈ es := hperm.mem_iff.mp (List.take_subset k sorted hv)
      rw [hes] at hv_es
      exact (List.mem_filter.mp hv_es).1
    have victims_eng : ∀ v ∈ sorted.take k, v.2.engine = engine := by
      intro v hv
      have hv_es : v ∈ es := hperm.mem_iff.mp (List.take_subset k sorted hv)
      rw [hes] at hv_es
      exact of_decide_eq_true (List.mem_filter.mp hv_es).2
    have victims_guard : ∀ v ∈ sorted.take k,
        lookupA chat.active engine ≠ some v.1 := by
      intro v hv he
      rw [hactive] at he
      exact victims_ne v hv (Option.some.inj he).symm
    have hcnt := fold_erase_count engine (lookupA chat.active engine)
      (sorted.take k) chat.history hnodup victims_nd victims_hist
      victims_eng victims_guard
    have hklen : (sorted.take k).length = k := by
      rw [List.length_take, hsortlen]
      omega
    rw [hcnt, hklen, ← hes]
    omega

/-! ### Runner lemmas -/

theorem emitEvents_spec {D : Type} (R : JsonlRunner D)
    (expected : Option ResumeToken) :
    ∀ (evs : List TakopiEvent) (found : Option ResumeToken)
      (out : List TakopiEvent) (f2 : Option ResumeToken) (d2 : Bool),
      emitEvents R expected evs found = .ok (out, f2, d2) →
      (d2 = false → ∀ e ∈ out, isCompleted e = false) ∧
      (d2 = true → ∃ pre last, out = pre ++ [last] ∧ isCompleted last = true ∧
        ∀ e ∈ pre, isCompleted e = false) := by
  intro evs
  induction evs with
  | nil =>
    intro found out f2 d2 h
    simp only [emitEvents, Except.ok.injEq, Prod.mk.injEq] at h
    obtain ⟨h1, _, h3⟩ := h
    constructor
    · intro _ e he
      rw [← h1] at he
      cases he
    · intro hd
      rw [← h3] at hd
      cases hd
  | cons evt rest ih =>
    intro found out f2 d2 h
    cases evt with
    | session eng r title =>
      simp only [emitEvents] at h
      cases hh : handleStartedEvent R eng r expected found with
      | error e =>
        rw [hh] at h
        cases h
      | ok pr =>
        obtain ⟨found', emit⟩ := pr
        rw [hh] at h
        cases emit with
        | true =>
          simp only [if_true] at h
          cases hrec : emitEvents R expected rest found' with
          | error e =>
            rw [hrec] at h
            cases h
          | ok o =>
            obtain ⟨out1, ff, dd⟩ := o
            rw [hrec] at h
            simp only [Except.ok.injEq, Prod.mk.injEq] at h
            obtain ⟨h1, h2, h3⟩ := h
            have hspec := ih found' out1 ff dd hrec
            constructor
            · intro hd e hmem
              rw [← h1] at hmem
              rcases List.mem_cons.mp hmem with rfl | hmem'
              · rfl
              · exact hspec.1 (by rw [h3]; exact hd) e hmem'
            · intro hd
              obtain ⟨pre, last, hout, hlast, hpre⟩ :=
                hspec.2 (by rw [h3]; exact hd)
              refine ⟨TakopiEvent.session eng r title :: pre, last, ?_, hlast, ?_⟩
              · rw [← h1, hout]
                rfl
              · intro e hmem
                rcases List.mem_cons.mp hmem with rfl | hmem'
                · rfl
                · exact hpre e hmem'
        | false =>
          simp only [Bool.false_eq_true, if_false] at h
          exact ih found' out f2 d2 h
    | completed eng ok ans res err =>
      simp only [emitEvents, Except.ok.injEq, Prod.mk.injEq] at h
      obtain ⟨h1, _, h3⟩ := h
      constructor
      · intro hd
        rw [← h3] at hd
        cases hd
      · intro _
        refine ⟨[], TakopiEvent.completed eng ok ans res err, ?_, rfl, ?_⟩
        · rw [← h1]
          rfl
        · intro e he
          cases he
    | action eng a ph ok msg lvl =>
      simp only [emitEvents] at h
      cases hrec : emitEvents R expected rest found with
      | error e =>
        rw [hrec] at h
        cases h
      | ok o =>
        obtain ⟨out1, ff, dd⟩ := o
        rw [hrec] at h
        simp only [Except.ok.injEq, Prod.mk.injEq] at h
        obtain ⟨h1, h2, h3⟩ := h
        have hspec := ih found out1 ff dd hrec
        constructor
        · intro hd e hmem
          rw [← h1] at hmem
          rcases List.mem_cons.mp hmem with rfl | hmem'
          · rfl
          · exact hspec.1 (by rw [h3]; exact hd) e hmem'
        · intro hd
          obtain ⟨pre, last, hout, hlast, hpre⟩ :=
            hspec.2 (by rw [h3]; exact hd)
          refine ⟨TakopiEvent.action eng a ph ok msg lvl :: pre, last, ?_, hlast, ?_⟩
          · rw [← h1, hout]
            rfl
          · intro e hmem
            rcases List.mem_cons.mp hmem with rfl | hmem'
            · rfl
            · exact hpre e hmem'

theorem runLines_drain {D : Type} (R : JsonlRunner D)
    (expected : Option ResumeToken) :
    ∀ (ls : List (JsonLine D)) (seq : Nat) (found : Option ResumeToken),
      runLines R expected ls seq found true = .ok ([], seq, found, true) := by
  intro ls
  induction ls with
  | nil => intro seq found; rfl
  | cons l t ih =>
    intro seq found
    simp only [runLines, if_true]
    exact ih seq found

theorem runLines_spec {D : Type} (R : JsonlRunner D)
    (expected : Option ResumeToken) :
    ∀ (ls : List (JsonLine D)) (seq : Nat) (found : Option ResumeToken)
      (out : List TakopiEvent) (s2 : Nat) (f2 : Option ResumeToken) (d2 : Bool),
      runLines R expected ls seq found false = .ok (out, s2, f2, d2) →
      (d2 = false → ∀ e ∈ out, isCompleted e = false) ∧
      (d2 = true → ∃ pre last, out = pre ++ [last] ∧ isCompleted last = true ∧
        ∀ e ∈ pre, isCompleted e = false) := by
  intro ls
  induction ls with
  | nil =>
    intro seq found out s2 f2 d2 h
    simp only [runLines, Except.ok.injEq, Prod.mk.injEq] at h
    obtain ⟨h1, _, _, h4⟩ := h
    constructor
    · intro _ e he
      rw [← h1] at he
      cases he
    · intro hd
      rw [← h4] at hd
      cases hd
  | cons l t ih =>
    intro seq found out s2 f2 d2 h
    simp only [runLines, Bool.false_eq_true, if_false] at h
    cases hle : lineEvents R l seq expected found with
    | mk evs seq' =>
      rw [hle] at h
      cases hemit : emitEvents R expected evs found with
      | error e =>
        rw [hemit] at h
        cases h
      | ok o =>
        obtain ⟨out1, found', dd⟩ := o
        rw [hemit] at h
        have hespec := emitEvents_spec R expected evs found out1 found' dd hemit
        have h2 : (match runLines R expected t seq' found' dd with
            | Except.error e => Except.error e
            | Except.ok (out2, s2, f2, d2) =>
              Except.ok (out1 ++ out2, s2, f2, d2)) =
            Except.ok (out, s2, f2, d2) := h
        clear h
        cases dd with
        | false =>
          cases hrec : runLines R expected t seq' found' false with
          | error e =>
            rw [hrec] at h2
            cases h2
          | ok o2 =>
            obtain ⟨out2, ss, ff, d2'⟩ := o2
            rw [hrec] at h2
            simp only [Except.ok.injEq, Prod.mk.injEq] at h2
            obtain ⟨h1, _, _, h4⟩ := h2
            have hrspec := ih seq' found' out2 ss ff d2' hrec
            constructor
            · intro hd e hmem
              rw [← h1] at hmem
              rcases List.mem_append.mp hmem with hm | hm
              · exact hespec.1 rfl e hm
              · exact hrspec.1 (by rw [h4]; exact hd) e hm
            · intro hd
              obtain ⟨pre, last, hout, hlast, hpre⟩ :=
                hrspec.2 (by rw [h4]; exact hd)
              refine ⟨out1 ++ pre, last, ?_, hlast, ?_⟩
              · rw [← h1, hout, List.append_assoc]
              · intro e hmem
                rcases List.mem_append.mp hmem with hm | hm
                · exact hespec.1 rfl e hm
                · exact hpre e hm
        | true =>
          rw [runLines_drain R expected t seq' found'] at h2
          simp only [Except.ok.injEq, Prod.mk.injEq] at h2
          obtain ⟨h1, _, _, h4⟩ := h2
          constructor
          · intro hd
            rw [← h4] at hd
            cases hd
          · intro _
            obtain ⟨pre, last, hout, hlast, hpre⟩ := hespec.2 rfl
            refine ⟨pre, last, ?_, hlast, hpre⟩
            rw [← h1, hout]
            simp

/-! ### Config-migration lemmas -/

theorem legacyFinish_lookups (config transports telegram : List (String × TomlVal)) :
    lookupA (legacyFinish config transports telegram) "bot_token" = none ∧
    lookupA (legacyFinish config transports telegram) "chat_id" = none := by
  constructor
  · simp only [legacyFinish]
    split
    · rw [lookupA_eraseA_ne _ _ _ (by decide), lookupA_eraseA_self]
    · rw [lookupA_setA_ne _ _ _ _ (by decide),
        lookupA_eraseA_ne _ _ _ (by decide), lookupA_eraseA_self]
  · simp only [legacyFinish]
    split
    · rw [lookupA_eraseA_self]
    · rw [lookupA_setA_ne _ _ _ _ (by decide), lookupA_eraseA_self]

theorem migrateLegacyTelegram_flag {cfg cfg1 : List (String × TomlVal)} {b : Bool}
    (h : migrateLegacyTelegram cfg = .ok (cfg1, b)) :
    (b = false → cfg1 = cfg ∧
      ¬((lookupA cfg "bot_token").isSome || (lookupA cfg "chat_id").isSome) = true)
    ∧ (b = true → lookupA cfg1 "bot_token" = none ∧
        lookupA cfg1 "chat_id" = none) := by
  unfold migrateLegacyTelegram at h
  split at h
  · split at h
    · cases h
    · split at h
      · cases h
      · simp only [Except.ok.injEq, Prod.mk.injEq] at h
        obtain ⟨h1, hb⟩ := h
        constructor
        · intro h0
          rw [h0] at hb
          cases hb
        · intro _
          rw [← h1]
          exact legacyFinish_lookups ..
  · simp only [Except.ok.injEq, Prod.mk.injEq] at h
    obtain ⟨h1, hb⟩ := h
    rename_i hcond
    constructor
    · intro _
      exact ⟨h1.symm, hcond⟩
    · intro h0
      rw [h0] at hb
      cases hb

theorem topicsFinish_shape (config transports telegram topics :
    List (String × TomlVal)) :
    ∃ tr tel tp,
      lookupA (topicsFinish config transports telegram topics) "transports"
        = some (.table tr) ∧
      lookupA tr "telegram" = some (.table tel) ∧
      lookupA tel "topics" = some (.table tp) ∧
      lookupA tp "mode" = none := by
  refine ⟨setA transports "telegram"
      (.table (setA telegram "topics" (.table (eraseA topics "mode")))),
    setA telegram "topics" (.table (eraseA topics "mode")),
    eraseA topics "mode", ?_, ?_, ?_, ?_⟩
  · simp only [topicsFinish]
    exact lookupA_setA_self ..
  · exact lookupA_setA_self ..
  · exact lookupA_setA_self ..
  · exact lookupA_eraseA_self ..

theorem migrateTopicsScope_flag {cfg cfg2 : List (String × TomlVal)} {b : Bool}
    (h : migrateTopicsScope cfg = .ok (cfg2, b)) :
    (b = false → cfg2 = cfg)
    ∧ (b = true → ∃ tr tel tp,
        lookupA cfg2 "transports" = some (.table tr) ∧
        lookupA tr "telegram" = some (.table tel) ∧
        lookupA tel "topics" = some (.table tp) ∧
        lookupA tp "mode" = none)
    ∧ (lookupA cfg2 "bot_token" = lookupA cfg "bot_token" ∧
       lookupA cfg2 "chat_id" = lookupA cfg "chat_id") := by
  unfold migrateTopicsScope at h
  split at h
  · simp only [Except.ok.injEq, Prod.mk.injEq] at h
    obtain ⟨h1, hb⟩ := h
    refine ⟨fun _ => h1.symm, fun h0 => ?_, by rw [← h1], by rw [← h1]⟩
    rw [h0] at hb
    cases hb
  · split at h
    · simp only [Except.ok.injEq, Prod.mk.injEq] at h
      obtain ⟨h1, hb⟩ := h
      refine ⟨fun _ => h1.symm, fun h0 => ?_, by rw [← h1], by rw [← h1]⟩
      rw [h0] at hb
      cases hb
    · split at h
      · simp only [Except.ok.injEq, Prod.mk.injEq] at h
        obtain ⟨h1, hb⟩ := h
        refine ⟨fun _ => h1.symm, fun h0 => ?_, by rw [← h1], by rw [← h1]⟩
        rw [h0] at hb
        cases hb
      · split at h
        · split at h
          · cases h
          · simp only [Except.ok.injEq, Prod.mk.injEq] at h
            obtain ⟨h1, hb⟩ := h
            refine ⟨fun h0 => ?_, fun _ => ?_, ?_, ?_⟩
            · rw [h0] at hb
              cases hb
            · rw [← h1]
              exact topicsFinish_shape ..
            · rw [← h1]
              simp only [topicsFinish]
              rw [lookupA_setA_ne _ _ _ _ (by decide)]
            · rw [← h1]
              simp only [topicsFinish]
              rw [lookupA_setA_ne _ _ _ _ (by decide)]
        · simp only [Except.ok.injEq, Prod.mk.injEq] at h
          obtain ⟨h1, hb⟩ := h
          refine ⟨fun _ => h1.symm, fun h0 => ?_, by rw [← h1], by rw [← h1]⟩
          rw [h0] at hb
          cases hb
      · cases h
    · cases h
  · cases h

/-! ### Redaction lemmas -/

theorem subToken_nil : subToken [] = [] := by
  unfold subToken
  rfl

theorem subToken_cons (c : Char) (cs : List Char) :
    subToken (c :: cs) = match tryToken (c :: cs) with
      | some n => replToken ++ subToken (cs.drop (n - 1))
      | none => c :: subToken cs := by
  conv_lhs => unfold subToken

theorem subToken_cons_some {c : Char} {cs : List Char} {n : Nat}
    (h : tryToken (c :: cs) = some n) :
    subToken (c :: cs) = replToken ++ subToken (cs.drop (n - 1)) := by
  rw [subToken_cons, h]

theorem subToken_cons_none {c : Char} {cs : List Char}
    (h : tryToken (c :: cs) = none) :
    subToken (c :: cs) = c :: subToken cs := by
  rw [subToken_cons, h]

theorem subBare_nil (prev : Option Char) : subBare prev [] = [] := by
  unfold subBare
  rfl

theorem subBare_cons (prev : Option Char) (c : Char) (cs : List Char) :
    subBare prev (c :: cs) = match tryBare prev (c :: cs) with
      | some n => replBare ++ subBare (c :: cs)[n - 1]? (cs.drop (n - 1))
      | none => c :: subBare (some c) cs := by
  conv_lhs => unfold subBare

theorem subBare_cons_some {prev : Option Char} {c : Char} {cs : List Char}
    {n : Nat} (h : tryBare prev (c :: cs) = some n) :
    subBare prev (c :: cs)
      = replBare ++ subBare (c :: cs)[n - 1]? (cs.drop (n - 1)) := by
  rw [subBare_cons, h]

theorem subBare_cons_none {prev : Option Char} {c : Char} {cs : List Char}
    (h : tryBare prev (c :: cs) = none) :
    subBare prev (c :: cs) = c :: subBare (some c) cs := by
  rw [subBare_cons, h]

theorem tryToken_head_ne {c : Char} (cs : List Char) (h : c ≠ 'b') :
    tryToken (c :: cs) = none := by
  match cs with
  | [] => rfl
  | [d] => rfl
  | d :: e :: rest =>
    show (if c = 'b' ∧ d = 'o' ∧ e = 't'
      then (tokenTail rest).map (fun n => 3 + n) else none) = none
    rw [if_neg]
    rintro ⟨h1, -, -⟩
    exact h h1

theorem patternBare_head_not_digit {c : Char} (cs : List Char)
    (h : c.isDigit = false) :
    patternBare (c :: cs) = none := by
  unfold patternBare
  rw [List.takeWhile_cons_of_neg (by simp [h])]
  simp

theorem tryBare_of_pattern_none {prev : Option Char} {cs : List Char}
    (h : patternBare cs = none) : tryBare prev cs = none := by
  unfold tryBare
  split
  · exact h
  · rfl

theorem tryBare_boundary {prev : Option Char} {cs : List Char} {n : Nat}
    (h : tryBare prev cs = some n) :
    boundaryOk prev = true ∧ patternBare cs = some n := by
  unfold tryBare at h
  by_cases hb : boundaryOk prev = true
  · rw [if_pos hb] at h
    exact ⟨hb, h⟩
  · rw [if_neg hb] at h
    cases h

theorem tryBare_word_prev {p : Char} (cs : List Char)
    (h : isWordChar p = true) : tryBare (some p) cs = none := by
  unfold tryBare boundaryOk
  rw [if_neg]
  simp [h]

theorem isWordChar_of_digit {c : Char} (h : c.isDigit = true) :
    isWordChar c = true := by
  unfold isWordChar
  simp [h]

theorem isClassChar_of_digit {c : Char} (h : c.isDigit = true) :
    isClassChar c = true := by
  unfold isClassChar
  simp [h]

theorem isClassChar_not_word {c : Char} (hc : isClassChar c = true)
    (hw : isWordChar c = false) : c = '-' := by
  unfold isClassChar at hc
  unfold isWordChar at hw
  simp only [Bool.or_eq_true, decide_eq_true_eq] at hc
  simp only [Bool.or_eq_false_iff, decide_eq_false_iff_not] at hw
  rcases hc with ((ha | hd) | hu) | hm
  · exact absurd ha (by simp [hw.1.1])
  · exact absurd hd (by simp [hw.1.2])
  · exact absurd hu hw.2
  · exact hm

theorem isWordChar_digit_colon : isWordChar ':' = false := by decide

theorem digit_isClassChar_false_elim {c : Char} (hc : isClassChar c = false)
    (hd : c.isDigit = true) : False := by
  rw [isClassChar_of_digit hd] at hc
  cases hc

theorem tryToken_repl_head (rest : List Char) :
    tryToken ('b' :: 'o' :: 't' :: '[' :: rest) = none := by
  show (if ('b' : Char) = 'b' ∧ ('o' : Char) = 'o' ∧ ('t' : Char) = 't'
    then (tokenTail ('[' :: rest)).map (fun n => 3 + n) else none) = none
  rw [if_pos ⟨rfl, rfl, rfl⟩]
  unfold tokenTail
  rw [List.takeWhile_cons_of_neg (by decide)]
  simp

theorem containsToken_cons_ne_b {c : Char} (h : c ≠ 'b') (t : List Char) :
    containsToken (c :: t) = containsToken t := by
  show ((tryToken (c :: t)).isSome || containsToken t) = containsToken t
  rw [tryToken_head_ne t h]
  simp

theorem containsToken_replToken_append (ys : List Char) :
    containsToken (replToken ++ ys) = containsToken ys := by
  show containsToken ('b' :: 'o' :: 't' :: '[' :: 'R' :: 'E' :: 'D' :: 'A' ::
    'C' :: 'T' :: 'E' :: 'D' :: ']' :: ys) = containsToken ys
  have hb : containsToken ('b' :: 'o' :: 't' :: '[' :: 'R' :: 'E' :: 'D' ::
      'A' :: 'C' :: 'T' :: 'E' :: 'D' :: ']' :: ys)
      = containsToken ('o' :: 't' :: '[' :: 'R' :: 'E' :: 'D' :: 'A' :: 'C' ::
        'T' :: 'E' :: 'D' :: ']' :: ys) := by
    show ((tryToken ('b' :: 'o' :: 't' :: '[' :: 'R' :: 'E' :: 'D' :: 'A' ::
      'C' :: 'T' :: 'E' :: 'D' :: ']' :: ys)).isSome || containsToken ('o' ::
      't' :: '[' :: 'R' :: 'E' :: 'D' :: 'A' :: 'C' :: 'T' :: 'E' :: 'D' ::
      ']' :: ys)) = _
    rw [tryToken_repl_head]
    simp
  rw [hb]
  rw [containsToken_cons_ne_b (by decide), containsToken_cons_ne_b (by decide),
    containsToken_cons_ne_b (by decide), containsToken_cons_ne_b (by decide),
    containsToken_cons_ne_b (by decide), containsToken_cons_ne_b (by decide),
    containsToken_cons_ne_b (by decide), containsToken_cons_ne_b (by decide),
    containsToken_cons_ne_b (by decide), containsToken_cons_ne_b (by decide),
    containsToken_cons_ne_b (by decide), containsToken_cons_ne_b (by decide)]

theorem containsBare_cons_not_digit {c : Char} (hc : c.isDigit = false)
    (p : Option Char) (t : List Char) :
    containsBare p (c :: t) = containsBare (some c) t := by
  show ((tryBare p (c :: t)).isSome || containsBare (some c) t) = _
  rw [tryBare_of_pattern_none (patternBare_head_not_digit t hc)]
  simp

theorem containsBare_replBare_append (prev : Option Char) (ys : List Char) :
    containsBare prev (replBare ++ ys) = containsBare (some ']') ys := by
  show containsBare prev ('[' :: 'R' :: 'E' :: 'D' :: 'A' :: 'C' :: 'T' ::
    'E' :: 'D' :: '_' :: 'T' :: 'O' :: 'K' :: 'E' :: 'N' :: ']' :: ys) = _
  rw [containsBare_cons_not_digit (by decide), containsBare_cons_not_digit (by decide),
    containsBare_cons_not_digit (by decide), containsBare_cons_not_digit (by decide),
    containsBare_cons_not_digit (by decide), containsBare_cons_not_digit (by decide),
    containsBare_cons_not_digit (by decide), containsBare_cons_not_digit (by decide),
    containsBare_cons_not_digit (by decide), containsBare_cons_not_digit (by decide),
    containsBare_cons_not_digit (by decide), containsBare_cons_not_digit (by decide),
    containsBare_cons_not_digit (by decide), containsBare_cons_not_digit (by decide),
    containsBare_cons_not_digit (by decide), containsBare_cons_not_digit (by decide)]

theorem containsToken_tail {c : Char} {cs : List Char}
    (h : containsToken (c :: cs) = false) : containsToken cs = false := by
  have h2 : ((tryToken (c :: cs)).isSome || containsToken cs) = false := h
  simp only [Bool.or_eq_false_iff] at h2
  exact h2.2

theorem tryToken_of_containsToken {c : Char} {cs : List Char}
    (h : containsToken (c :: cs) = false) : tryToken (c :: cs) = none := by
  cases ht : tryToken (c :: cs) with
  | none => rfl
  | some n =>
    have h2 : ((tryToken (c :: cs)).isSome || containsToken cs) = false := h
    rw [ht] at h2
    simp at h2

theorem containsToken_drop (n : Nat) {cs : List Char}
    (h : containsToken cs = false) : containsToken (cs.drop n) = false := by
  induction n generalizing cs with
  | zero => simpa using h
  | succ n ih =>
    cases cs with
    | nil => exact h
    | cons c cs' =>
      exact ih (containsToken_tail h)

theorem tryToken_some_head {c : Char} {cs : List Char} {n : Nat}
    (h : tryToken (c :: cs) = some n) : c = 'b' := by
  by_contra hc
  rw [tryToken_head_ne cs hc] at h
  cases h

theorem patternBare_some_head {c : Char} {cs : List Char} {n : Nat}
    (h : patternBare (c :: cs) = some n) : c.isDigit = true := by
  cases hd : c.isDigit with
  | false =>
    rw [patternBare_head_not_digit cs hd] at h
    cases h
  | true => rfl

theorem subToken_append_no_b {pre rest : List Char}
    (h : ∀ x ∈ pre, x ≠ 'b') :
    subToken (pre ++ rest) = pre ++ subToken rest := by
  induction pre with
  | nil => simp
  | cons x pre' ih =>
    rw [List.cons_append, subToken_cons_none (tryToken_head_ne _ (h x (by simp))),
      ih (fun y hy => h y (by simp [hy])), List.cons_append]

theorem subBare_cons_word {p c : Char} {cs : List Char}
    (hp : isWordChar p = true) :
    subBare (some p) (c :: cs) = c :: subBare (some c) cs :=
  subBare_cons_none (tryBare_word_prev _ hp)

theorem subBare_digits_append {ds : List Char} (rest : List Char)
    {prev : Option Char}
    (hds : ∀ x ∈ ds, x.isDigit = true)
    (hprev : ∃ p, prev = some p ∧ isWordChar p = true) :
    ∃ p', isWordChar p' = true ∧
      subBare prev (ds ++ rest) = ds ++ subBare (some p') rest := by
  induction ds generalizing prev with
  | nil =>
    obtain ⟨p, rfl, hw⟩ := hprev
    exact ⟨p, hw, by simp⟩
  | cons d ds' ih =>
    obtain ⟨p, rfl, hw⟩ := hprev
    have hd : d.isDigit = true := hds d (by simp)
    obtain ⟨p', hp', heq⟩ := ih (fun x hx => hds x (by simp [hx]))
      ⟨d, rfl, isWordChar_of_digit hd⟩
    refine ⟨p', hp', ?_⟩
    rw [List.cons_append, subBare_cons_word hw, heq, List.cons_append]

theorem takeWhile_append_all {p : Char → Bool} {ds : List Char}
    (X : List Char) (h : ∀ x ∈ ds, p x = true) :
    (ds ++ X).takeWhile p = ds ++ X.takeWhile p := by
  induction ds with
  | nil => simp
  | cons d t ih =>
    rw [List.cons_append, List.takeWhile_cons_of_pos (h d (by simp)),
      ih (fun x hx => h x (by simp [hx])), List.cons_append]

theorem takeWhile_nil_of_head {p : Char → Bool} {l : List Char}
    (h : ∀ c t, l = c :: t → p c = false) : l.takeWhile p = [] := by
  cases l with
  | nil => rfl
  | cons c t => exact List.takeWhile_cons_of_neg (by simp [h c t rfl])

theorem cutValid_spec {run : List Char} {k : Nat} (h : cutValid run k = true) :
    10 ≤ k ∧ (∃ c, run[k - 1]? = some c ∧ c ≠ '-') ∧
      (k = run.length ∨ run[k]? = some '-') := by
  unfold cutValid at h
  simp only [Bool.and_eq_true, Bool.or_eq_true, decide_eq_true_eq] at h
  obtain ⟨⟨h10, hmid⟩, hlast⟩ := h
  refine ⟨h10, ?_, ?_⟩
  · cases hm : run[k - 1]? with
    | none =>
      rw [hm] at hmid
      cases hmid
    | some c =>
      rw [hm] at hmid
      exact ⟨c, rfl, of_decide_eq_true hmid⟩
  · cases hlast with
    | inl hl => exact Or.inl hl
    | inr hr =>
      cases hm : run[k]? with
      | none =>
        rw [hm] at hr
        cases hr
      | some c =>
        rw [hm] at hr
        refine Or.inr ?_
        rw [of_decide_eq_true hr]

theorem cutValid_intro {run : List Char} {k : Nat} (h10 : 10 ≤ k)
    {c : Char} (hmid : run[k - 1]? = some c) (hne : c ≠ '-')
    (hlast : k = run.length ∨ run[k]? = some '-') :
    cutValid run k = true := by
  unfold cutValid
  simp only [Bool.and_eq_true, Bool.or_eq_true, decide_eq_true_eq]
  refine ⟨⟨h10, ?_⟩, ?_⟩
  · rw [hmid]
    exact decide_eq_true hne
  · cases hlast with
    | inl hl => exact Or.inl hl
    | inr hr =>
      rw [hr]
      exact Or.inr (decide_eq_true rfl)

theorem findCut_none_iff {run : List Char} {m : Nat} :
    findCut run m = none ↔ ∀ k, 0 < k → k ≤ m → cutValid run k = false := by
  induction m with
  | zero =>
    constructor
    · intro _ k hk1 hk2
      omega
    · intro _
      rfl
  | succ m ih =>
    constructor
    · intro h k hk1 hk2
      unfold findCut at h
      by_cases hv : cutValid run (m + 1) = true
      · rw [if_pos hv] at h
        cases h
      · rw [if_neg hv] at h
        rcases Nat.lt_or_ge k (m + 1) with hlt | hge
        · exact ih.mp h k hk1 (by omega)
        · have hk : k = m + 1 := by omega
          subst hk
          cases hb : cutValid run (m + 1) with
          | false => rfl
          | true => exact absurd hb hv
    · intro h
      unfold findCut
      rw [if_neg]
      · exact ih.mpr (fun k hk1 hk2 => h k hk1 (by omega))
      · rw [h (m + 1) (by omega) (by omega)]
        simp

theorem patternBare_some_spec {cs : List Char} {n : Nat}
    (h : patternBare cs = some n) :
    ∃ k rest2, cs.drop (cs.takeWhile Char.isDigit).length = ':' :: rest2 ∧
      0 < (cs.takeWhile Char.isDigit).length ∧
      findCut (rest2.takeWhile isClassChar)
        (rest2.takeWhile isClassChar).length = some k ∧
      n = (cs.takeWhile Char.isDigit).length + 1 + k := by
  unfold patternBare at h
  by_cases hd : (cs.takeWhile Char.isDigit).length = 0
  · rw [if_pos hd] at h
    cases h
  · rw [if_neg hd] at h
    cases hdrop : cs.drop (cs.takeWhile Char.isDigit).length with
    | nil =>
      rw [hdrop] at h
      cases h
    | cons x rest2 =>
      rw [hdrop] at h
      have h1 : (if x = ':' then
          (match findCut (rest2.takeWhile isClassChar)
              (rest2.takeWhile isClassChar).length with
            | some k => some ((cs.takeWhile Char.isDigit).length + 1 + k)
            | none => none)
          else none) = some n := h
      by_cases hx : x = ':'
      · rw [if_pos hx] at h1
        subst hx
        cases hcut : findCut (rest2.takeWhile isClassChar)
            (rest2.takeWhile isClassChar).length with
        | none =>
          rw [hcut] at h1
          cases h1
        | some k =>
          rw [hcut] at h1
          injection h1 with h1
          exact ⟨k, rest2, rfl, by omega, hcut, h1.symm⟩
      · rw [if_neg hx] at h1
        cases h1

theorem findCut_some_valid {run : List Char} {m k : Nat}
    (h : findCut run m = some k) : cutValid run k = true := by
  induction m with
  | zero => cases h
  | succ m ih =>
    unfold findCut at h
    by_cases hv : cutValid run (m + 1) = true
    · rw [if_pos hv] at h
      injection h with h
      rw [← h]
      exact hv
    · rw [if_neg hv] at h
      exact ih h

theorem dropWhile_eq_drop {p : Char → Bool} (l : List Char) :
    l.dropWhile p = l.drop (l.takeWhile p).length := by
  induction l with
  | nil => rfl
  | cons c t ih =>
    by_cases hc : p c = true
    · rw [List.dropWhile_cons_of_pos hc, List.takeWhile_cons_of_pos hc]
      simpa using ih
    · rw [List.dropWhile_cons_of_neg (by simpa using hc),
        List.takeWhile_cons_of_neg (by simpa using hc)]
      rfl

theorem takeWhile_getElem? {p : Char → Bool} {l : List Char} {i : Nat}
    {x : Char} (h : (l.takeWhile p)[i]? = some x) : l[i]? = some x := by
  obtain ⟨t, ht⟩ : l.takeWhile p <+: l := List.takeWhile_prefix p
  have hi : i < (l.takeWhile p).length := by
    by_contra hge
    rw [List.getElem?_eq_none (by omega)] at h
    cases h
  rw [← ht, List.getElem?_append, if_pos hi]
  exact h

theorem runScan (rest : List Char) (prev : Option Char) :
    (subBare prev rest).takeWhile isClassChar = rest.takeWhile isClassChar ∨
    ∃ q, q ≤ (rest.takeWhile isClassChar).length ∧
      (subBare prev rest).takeWhile isClassChar
        = (rest.takeWhile isClassChar).take q ∧
      (q = 0 → boundaryOk prev = true) ∧
      (0 < q → (rest.takeWhile isClassChar)[q - 1]? = some '-') := by
  induction rest generalizing prev with
  | nil =>
    left
    rw [subBare_nil]
  | cons c cs' ih =>
    cases hm : tryBare prev (c :: cs') with
    | some n =>
      right
      refine ⟨0, Nat.zero_le _, ?_, fun _ => (tryBare_boundary hm).1,
        fun h0 => absurd h0 (by omega)⟩
      rw [subBare_cons_some hm, List.take_zero]
      show (('[' : Char) :: _).takeWhile isClassChar = []
      exact List.takeWhile_cons_of_neg (by decide)
    | none =>
      rw [subBare_cons_none hm]
      by_cases hc : isClassChar c = true
      · rw [List.takeWhile_cons_of_pos hc, List.takeWhile_cons_of_pos hc]
        rcases ih (some c) with hleft | ⟨q, hq, heq, h0, hpos⟩
        · left
          rw [hleft]
        · right
          refine ⟨q + 1, by simpa using Nat.succ_le_succ hq, ?_,
            fun hcontra => absurd hcontra (by omega), ?_⟩
          · rw [heq]
            rw [List.take_succ_cons]
          · intro _
            cases Nat.eq_zero_or_pos q with
            | inl hq0 =>
              subst hq0
              have hb : boundaryOk (some c) = true := h0 rfl
              have hw : isWordChar c = false := by
                unfold boundaryOk at hb
                simpa using hb
              show (c :: (cs'.takeWhile isClassChar))[0]? = some '-'
              rw [List.getElem?_cons_zero, isClassChar_not_word hc hw]
            | inr hqpos =>
              have hget := hpos hqpos
              show (c :: (cs'.takeWhile isClassChar))[q + 1 - 1]? = some '-'
              cases q with
              | zero => omega
              | succ q2 =>
                rw [show q2 + 1 + 1 - 1 = q2 + 1 from rfl,
                  List.getElem?_cons_succ]
                simpa using hget
      · left
        rw [List.takeWhile_cons_of_neg (by simpa using hc),
          List.takeWhile_cons_of_neg (by simpa using hc)]

theorem findCut_take_none {run : List Char} {q : Nat}
    (hnone : findCut run run.length = none) (hq : q ≤ run.length)
    (hcond : 0 < q → run[q - 1]? = some '-') :
    findCut (run.take q) (run.take q).length = none := by
  rw [findCut_none_iff]
  intro k hk1 hk2
  cases hcv : cutValid (run.take q) k with
  | false => rfl
  | true =>
    exfalso
    obtain ⟨h10, ⟨c, hmid, hne⟩, hlast⟩ := cutValid_spec hcv
    have hlen : (run.take q).length = q := by
      rw [List.length_take]
      omega
    rw [hlen] at hk2
    have hmid2 : run[k - 1]? = some c := by
      rw [← List.getElem?_take_of_lt (show k - 1 < q by omega)]
      exact hmid
    rcases hlast with hkq | hdash
    · rw [hlen] at hkq
      subst hkq
      have hc2 := hcond (by omega)
      rw [hc2] at hmid2
      injection hmid2 with hc3
      exact hne hc3.symm
    · have hklt : k < q := by
        by_contra hge
        have hkq : k = q := by omega
        subst hkq
        rw [List.getElem?_eq_none (by omega)] at hdash
        cases hdash
      have hdash2 : run[k]? = some '-' := by
        rw [← List.getElem?_take_of_lt hklt]
        exact hdash
      have hcv2 : cutValid run k = true :=
        cutValid_intro h10 hmid2 hne (Or.inr hdash2)
      have hfalse := findCut_none_iff.mp hnone k (by omega) (by omega)
      rw [hcv2] at hfalse
      cases hfalse

theorem tryBare_after_match {prev : Option Char} {cs : List Char} {n : Nat}
    (h : tryBare prev cs = some n) {d : Char}
    (hd : (cs.drop n).head? = some d) : d.isDigit = false := by
  obtain ⟨-, hp⟩ := tryBare_boundary h
  obtain ⟨k, rest2, hdrop, hdl, hcut, hn⟩ := patternBare_some_spec hp
  have h1 : cs.drop n = rest2.drop k := by
    rw [hn]
    have h2 : cs.drop ((cs.takeWhile Char.isDigit).length + 1 + k)
        = (cs.drop (cs.takeWhile Char.isDigit).length).drop (1 + k) := by
      rw [List.drop_drop, Nat.add_assoc]
    rw [h2, hdrop, show 1 + k = k + 1 from by omega, List.drop_succ_cons]
  rw [h1, List.head?_drop] at hd
  obtain ⟨h10, ⟨c, hmid, hne⟩, hlast⟩ := cutValid_spec (findCut_some_valid hcut)
  rcases hlast with hkLen | hdash
  · have h3 : rest2[k]? = (rest2.dropWhile isClassChar).head? := by
      rw [dropWhile_eq_drop, List.head?_drop, hkLen]
    rw [h3] at hd
    have h4 := List.head?_dropWhile_not isClassChar rest2
    rw [hd] at h4
    cases hdig : d.isDigit with
    | false => rfl
    | true => exact absurd h4 (by simp [isClassChar_of_digit hdig])
  · have h5 : rest2[k]? = some '-' := takeWhile_getElem? hdash
    rw [h5] at hd
    injection hd with hd
    rw [← hd]
    rfl

theorem patternBare_digits_cons {c : Char} {ds : List Char} {a : Char}
    (Z : List Char) (hc : c.isDigit = true)
    (hds : ∀ x ∈ ds, x.isDigit = true) (ha : a.isDigit = false) :
    patternBare (c :: (ds ++ a :: Z))
      = if a = ':' then
          (match findCut (Z.takeWhile isClassChar)
              (Z.takeWhile isClassChar).length with
           | some k => some ((c :: ds).length + 1 + k)
           | none => none)
        else none := by
  unfold patternBare
  have htw : (c :: (ds ++ a :: Z)).takeWhile Char.isDigit = c :: ds := by
    rw [List.takeWhile_cons_of_pos hc, takeWhile_append_all _ hds,
      List.takeWhile_cons_of_neg (by simp [ha])]
    simp
  rw [htw, if_neg (by simp)]
  have hdrop : (c :: (ds ++ a :: Z)).drop (c :: ds).length = a :: Z := by
    show (c :: (ds ++ a :: Z)).drop (ds.length + 1) = a :: Z
    rw [show ds.length + 1 = (ds.length) + 1 from rfl, List.drop_succ_cons,
      List.drop_left]
  rw [hdrop]

theorem patternBare_all_digits {c : Char} {ds : List Char}
    (hc : c.isDigit = true) (hds : ∀ x ∈ ds, x.isDigit = true) :
    patternBare (c :: ds) = none := by
  unfold patternBare
  have hall : (c :: ds).takeWhile Char.isDigit = c :: ds := by
    rw [List.takeWhile_cons_of_pos hc]
    congr 1
    have h2 : (ds ++ ([] : List Char)).takeWhile Char.isDigit
        = ds ++ ([] : List Char).takeWhile Char.isDigit :=
      takeWhile_append_all [] hds
    simpa using h2
  rw [hall, if_neg (by simp), List.drop_length]

theorem patternBare_transfer {c : Char} {cs' : List Char}
    (hfail : patternBare (c :: cs') = none) :
    patternBare (c :: subBare (some c) cs') = none := by
  cases hcdig : c.isDigit with
  | false => exact patternBare_head_not_digit _ hcdig
  | true =>
    have hdsall : ∀ x ∈ cs'.takeWhile Char.isDigit, x.isDigit = true :=
      fun x hx => List.mem_takeWhile_imp hx
    obtain ⟨p', hp', heq⟩ := subBare_digits_append
      (cs'.dropWhile Char.isDigit) hdsall ⟨c, rfl, isWordChar_of_digit hcdig⟩
    have heq2 : subBare (some c) cs' = cs'.takeWhile Char.isDigit
        ++ subBare (some p') (cs'.dropWhile Char.isDigit) := by
      conv_lhs => rw [← List.takeWhile_append_dropWhile Char.isDigit cs']
      exact heq
    cases hafterc : cs'.dropWhile Char.isDigit with
    | nil =>
      rw [heq2, hafterc, subBare_nil, List.append_nil]
      exact patternBare_all_digits hcdig hdsall
    | cons a after2 =>
      have h4 := List.head?_dropWhile_not Char.isDigit cs'
      rw [hafterc] at h4
      have hand : a.isDigit = false := h4
      have hstep : subBare (some p') (a :: after2)
          = a :: subBare (some a) after2 := subBare_cons_word hp'
      rw [heq2, hafterc, hstep, patternBare_digits_cons _ hcdig hdsall hand]
      have hfail2 : patternBare (c :: (cs'.takeWhile Char.isDigit
          ++ a :: after2)) = none := by
        rw [show cs'.takeWhile Char.isDigit ++ a :: after2 = cs' from by
          rw [← hafterc, List.takeWhile_append_dropWhile]]
        exact hfail
      rw [patternBare_digits_cons _ hcdig hdsall hand] at hfail2
      by_cases hacolon : a = ':'
      · rw [if_pos hacolon] at hfail2 ⊢
        subst hacolon
        have hfc : findCut (after2.takeWhile isClassChar)
            (after2.takeWhile isClassChar).length = none := by
          cases hq : findCut (after2.takeWhile isClassChar)
              (after2.takeWhile isClassChar).length with
          | none => rfl
          | some k =>
            rw [hq] at hfail2
            cases hfail2
        rcases runScan after2 (some ':') with hleft | ⟨q, hqle, heqq, h0, hpos⟩
        · rw [hleft, hfc]
        · rw [heqq, findCut_take_none hfc hqle hpos]
      · rw [if_neg hacolon]

theorem tryBare_pos {prev : Option Char} {cs : List Char} {n : Nat}
    (h : tryBare prev cs = some n) : 0 < n := by
  obtain ⟨-, hp⟩ := tryBare_boundary h
  obtain ⟨k, rest2, -, hdl, -, hn⟩ := patternBare_some_spec hp
  omega

theorem containsBare_subBare_bounded (N : Nat) :
    ∀ (cs : List Char), cs.length ≤ N → ∀ (prevIn prevScan : Option Char),
    (prevIn = prevScan ∨ ∀ d, cs.head? = some d → d.isDigit = false) →
    containsBare prevScan (subBare prevIn cs) = false := by
  induction N with
  | zero =>
    intro cs hlen prevIn prevScan hinv
    have hnil : cs = [] := List.eq_nil_of_length_eq_zero (by omega)
    subst hnil
    rw [subBare_nil]
    rfl
  | succ N ih =>
    intro cs hlen prevIn prevScan hinv
    cases cs with
    | nil =>
      rw [subBare_nil]
      rfl
    | cons c cs' =>
      cases hm : tryBare prevIn (c :: cs') with
      | some n =>
        rw [subBare_cons_some hm, containsBare_replBare_append]
        have hpos : 0 < n := tryBare_pos hm
        have hdropeq : (c :: cs').drop n = cs'.drop (n - 1) := by
          cases n with
          | zero => omega
          | succ m => simp [List.drop_succ_cons]
        refine ih (cs'.drop (n - 1)) ?_ _ _ (Or.inr ?_)
        · have : (cs'.drop (n - 1)).length = cs'.length - (n - 1) :=
            List.length_drop _ _
          simp only [List.length_cons] at hlen
          omega
        · intro d hd
          refine tryBare_after_match hm ?_
          rw [hdropeq]
          exact hd
      | none =>
        rw [subBare_cons_none hm]
        show ((tryBare prevScan (c :: subBare (some c) cs')).isSome
          || containsBare (some c) (subBare (some c) cs')) = false
        have htail : containsBare (some c) (subBare (some c) cs') = false := by
          refine ih cs' ?_ _ _ (Or.inl rfl)
          simp only [List.length_cons] at hlen
          omega
        have hhead : tryBare prevScan (c :: subBare (some c) cs') = none := by
          cases hcdig : c.isDigit with
          | false =>
            exact tryBare_of_pattern_none (patternBare_head_not_digit _ hcdig)
          | true =>
            rcases hinv with hpp | hright
            · subst hpp
              unfold tryBare at hm ⊢
              by_cases hbd : boundaryOk prevIn = true
              · rw [if_pos hbd] at hm ⊢
                exact patternBare_transfer hm
              · rw [if_neg hbd]
            · exact absurd hcdig (by simp [hright c rfl])
        rw [hhead, htail]
        rfl

theorem containsBare_subBare (cs : List Char) (prev : Option Char) :
    containsBare prev (subBare prev cs) = false :=
  containsBare_subBare_bounded cs.length cs (Nat.le_refl _) prev prev
    (Or.inl rfl)

theorem digit_ne_b {x : Char} (h : x.isDigit = true) : x ≠ 'b' := by
  intro hx
  rw [hx] at h
  exact absurd h (by decide)

theorem tokenTail_head_not_digit {c : Char} (cs : List Char)
    (h : c.isDigit = false) : tokenTail (c :: cs) = none := by
  unfold tokenTail
  rw [List.takeWhile_cons_of_neg (by simp [h])]
  simp

theorem tokenTail_all_digits {ds : List Char}
    (hds : ∀ x ∈ ds, x.isDigit = true) : tokenTail ds = none := by
  unfold tokenTail
  have hall : ds.takeWhile Char.isDigit = ds := by
    have h2 : (ds ++ ([] : List Char)).takeWhile Char.isDigit
        = ds ++ ([] : List Char).takeWhile Char.isDigit :=
      takeWhile_append_all [] hds
    simpa using h2
  rw [hall]
  by_cases hd0 : ds.length = 0
  · rw [if_pos hd0]
  · rw [if_neg hd0, List.drop_length]

theorem tokenTail_digits_cons {ds : List Char} {a : Char} (Z : List Char)
    (hds : ∀ x ∈ ds, x.isDigit = true) (ha : a.isDigit = false)
    (hne : ds ≠ []) :
    tokenTail (ds ++ a :: Z)
      = if a = ':' then
          (if (Z.takeWhile isClassChar).length = 0 then none
           else some (ds.length + 1 + (Z.takeWhile isClassChar).length))
        else none := by
  unfold tokenTail
  have htw : (ds ++ a :: Z).takeWhile Char.isDigit = ds := by
    rw [takeWhile_append_all _ hds, List.takeWhile_cons_of_neg (by simp [ha])]
    simp
  rw [htw, if_neg (by simp [List.length_eq_zero, hne]), List.drop_left]

theorem tokenTail_transfer {cs3 : List Char} (hfail : tokenTail cs3 = none) :
    tokenTail (subToken cs3) = none := by
  cases cs3 with
  | nil =>
    rw [subToken_nil]
    exact hfail
  | cons a t =>
    cases had : a.isDigit with
    | false =>
      cases hm : tryToken (a :: t) with
      | some n =>
        rw [subToken_cons_some hm]
        show tokenTail (('b' : Char) :: _) = none
        exact tokenTail_head_not_digit _ (by decide)
      | none =>
        rw [subToken_cons_none hm]
        exact tokenTail_head_not_digit _ had
    | true =>
      have hdsall : ∀ x ∈ (a :: t).takeWhile Char.isDigit, x.isDigit = true :=
        fun x hx => List.mem_takeWhile_imp hx
      have hsplit : (a :: t).takeWhile Char.isDigit
          ++ (a :: t).dropWhile Char.isDigit = a :: t :=
        List.takeWhile_append_dropWhile _ _
      have hsub : subToken (a :: t) = (a :: t).takeWhile Char.isDigit
          ++ subToken ((a :: t).dropWhile Char.isDigit) := by
        conv_lhs => rw [← hsplit]
        exact subToken_append_no_b (fun x hx => digit_ne_b (hdsall x hx))
      have hne : (a :: t).takeWhile Char.isDigit ≠ [] := by
        rw [List.takeWhile_cons_of_pos had]
        simp
      cases hafter : (a :: t).dropWhile Char.isDigit with
      | nil =>
        rw [hsub, hafter, subToken_nil, List.append_nil]
        exact tokenTail_all_digits hdsall
      | cons x rest2 =>
        have h4 := List.head?_dropWhile_not Char.isDigit (a :: t)
        rw [hafter] at h4
        have hxd : x.isDigit = false := h4
        cases hm2 : tryToken (x :: rest2) with
        | some m =>
          rw [hsub, hafter, subToken_cons_some hm2]
          show tokenTail ((a :: t).takeWhile Char.isDigit ++ 'b' ::
            (('o' :: 't' :: '[' :: 'R' :: 'E' :: 'D' :: 'A' :: 'C' :: 'T' ::
              'E' :: 'D' :: ']' :: ([] : List Char))
              ++ subToken (rest2.drop (m - 1)))) = none
          rw [tokenTail_digits_cons _ hdsall (by decide) hne,
            if_neg (by decide)]
        | none =>
          rw [hsub, hafter, subToken_cons_none hm2]
          rw [tokenTail_digits_cons _ hdsall hxd hne]
          have hfail2 : tokenTail ((a :: t).takeWhile Char.isDigit
              ++ x :: rest2) = none := by
            rw [show (a :: t).takeWhile Char.isDigit ++ x :: rest2 = a :: t
              from by rw [← hafter, hsplit]]
            exact hfail
          rw [tokenTail_digits_cons _ hdsall hxd hne] at hfail2
          by_cases hxc : x = ':'
          · rw [if_pos hxc] at hfail2 ⊢
            have hlen0 : (rest2.takeWhile isClassChar).length = 0 := by
              by_contra hno
              rw [if_neg hno] at hfail2
              cases hfail2
            rw [if_pos ?_]
            cases rest2 with
            | nil =>
              rw [subToken_nil]
              rfl
            | cons y rest3 =>
              have hyc : isClassChar y = false := by
                cases hyy : isClassChar y with
                | false => rfl
                | true =>
                  rw [List.takeWhile_cons_of_pos hyy] at hlen0
                  simp at hlen0
              cases hm3 : tryToken (y :: rest3) with
              | some m3 =>
                have hyb : y = 'b' := tryToken_some_head hm3
                rw [hyb] at hyc
                exact absurd hyc (by decide)
              | none =>
                rw [subToken_cons_none hm3,
                  List.takeWhile_cons_of_neg (by simp [hyc])]
                rfl
          · rw [if_neg hxc]

theorem tryToken_shape_ne {c d e : Char} (rest : List Char)
    (h : ¬(c = 'b' ∧ d = 'o' ∧ e = 't')) :
    tryToken (c :: d :: e :: rest) = none := by
  show (if c = 'b' ∧ d = 'o' ∧ e = 't'
    then (tokenTail rest).map (fun n => 3 + n) else none) = none
  rw [if_neg h]

theorem tryToken_two {d : Char} (l : List Char) (h : d ≠ 'o') :
    tryToken ('b' :: d :: l) = none := by
  cases l with
  | nil => rfl
  | cons e r => exact tryToken_shape_ne r (fun hand => h hand.2.1)

theorem tryToken_transfer {c : Char} {cs' : List Char}
    (hfail : tryToken (c :: cs') = none) :
    tryToken (c :: subToken cs') = none := by
  by_cases hcb : c = 'b'
  case neg => exact tryToken_head_ne _ hcb
  case pos =>
  subst hcb
  cases cs' with
  | nil =>
    rw [subToken_nil]
    exact hfail
  | cons c1 cs2 =>
    cases hm1 : tryToken (c1 :: cs2) with
    | some m =>
      rw [subToken_cons_some hm1]
      show tryToken ('b' :: 'b' :: 'o' :: ('t' :: '[' :: 'R' :: 'E' :: 'D' ::
        'A' :: 'C' :: 'T' :: 'E' :: 'D' :: ']' :: ([] : List Char))
        ++ subToken (cs2.drop (m - 1))) = none
      exact tryToken_shape_ne _ (fun hand => by
        have h2 := hand.2.1
        exact absurd h2 (by decide))
    | none =>
      rw [subToken_cons_none hm1]
      by_cases hc1 : c1 = 'o'
      case neg => exact tryToken_two _ hc1
      case pos =>
      subst hc1
      cases cs2 with
      | nil =>
        rw [subToken_nil]
        rfl
      | cons c2 cs3 =>
        cases hm2 : tryToken (c2 :: cs3) with
        | some m2 =>
          rw [subToken_cons_some hm2]
          show tryToken ('b' :: 'o' :: 'b' :: ('o' :: 't' :: '[' :: 'R' ::
            'E' :: 'D' :: 'A' :: 'C' :: 'T' :: 'E' :: 'D' :: ']' ::
            ([] : List Char)) ++ subToken (cs3.drop (m2 - 1))) = none
          exact tryToken_shape_ne _ (fun hand => by
            have h2 := hand.2.2
            exact absurd h2 (by decide))
        | none =>
          rw [subToken_cons_none hm2]
          by_cases hc2 : c2 = 't'
          case neg =>
            exact tryToken_shape_ne _ (fun hand => hc2 hand.2.2)
          case pos =>
          subst hc2
          have hfail2 : tokenTail cs3 = none := by
            have h0 : (if ('b' : Char) = 'b' ∧ ('o' : Char) = 'o' ∧
                ('t' : Char) = 't'
                then (tokenTail cs3).map (fun n => 3 + n) else none)
                = none := hfail
            rw [if_pos ⟨rfl, rfl, rfl⟩] at h0
            cases hq : tokenTail cs3 with
            | none => rfl
            | some k =>
              rw [hq] at h0
              cases h0
          show (if ('b' : Char) = 'b' ∧ ('o' : Char) = 'o' ∧
            ('t' : Char) = 't'
            then (tokenTail (subToken cs3)).map (fun n => 3 + n) else none)
            = none
          rw [if_pos ⟨rfl, rfl, rfl⟩, tokenTail_transfer hfail2]
          rfl

theorem containsToken_subToken_bounded (N : Nat) :
    ∀ cs : List Char, cs.length ≤ N → containsToken (subToken cs) = false := by
  induction N with
  | zero =>
    intro cs h
    have hnil : cs = [] := List.eq_nil_of_length_eq_zero (by omega)
    subst hnil
    rw [subToken_nil]
    rfl
  | succ N ih =>
    intro cs hlen
    cases cs with
    | nil =>
      rw [subToken_nil]
      rfl
    | cons c cs' =>
      cases hm : tryToken (c :: cs') with
      | some n =>
        rw [subToken_cons_some hm, containsToken_replToken_append]
        refine ih _ ?_
        have h2 : (cs'.drop (n - 1)).length = cs'.length - (n - 1) :=
          List.length_drop _ _
        simp only [List.length_cons] at hlen
        omega
      | none =>
        rw [subToken_cons_none hm]
        show ((tryToken (c :: subToken cs')).isSome
          || containsToken (subToken cs')) = false
        rw [tryToken_transfer hm, ih cs' (by
          simp only [List.length_cons] at hlen
          omega)]
        rfl

theorem containsToken_subToken (cs : List Char) :
    containsToken (subToken cs) = false :=
  containsToken_subToken_bounded cs.length cs (Nat.le_refl _)

theorem containsToken_replBare_append (ys : List Char) :
    containsToken (replBare ++ ys) = containsToken ys := by
  show containsToken ('[' :: 'R' :: 'E' :: 'D' :: 'A' :: 'C' :: 'T' ::
    'E' :: 'D' :: '_' :: 'T' :: 'O' :: 'K' :: 'E' :: 'N' :: ']' :: ys) = _
  rw [containsToken_cons_ne_b (by decide), containsToken_cons_ne_b (by decide),
    containsToken_cons_ne_b (by decide), containsToken_cons_ne_b (by decide),
    containsToken_cons_ne_b (by decide), containsToken_cons_ne_b (by decide),
    containsToken_cons_ne_b (by decide), containsToken_cons_ne_b (by decide),
    containsToken_cons_ne_b (by decide), containsToken_cons_ne_b (by decide),
    containsToken_cons_ne_b (by decide), containsToken_cons_ne_b (by decide),
    containsToken_cons_ne_b (by decide), containsToken_cons_ne_b (by decide),
    containsToken_cons_ne_b (by decide), containsToken_cons_ne_b (by decide)]

theorem tokenTail_transfer_bare {cs3 : List Char} {prev : Option Char}
    (hprev : ∃ p, prev = some p ∧ isWordChar p = true)
    (hfail : tokenTail cs3 = none) :
    tokenTail (subBare prev cs3) = none := by
  cases cs3 with
  | nil =>
    rw [subBare_nil]
    exact hfail
  | cons a t =>
    obtain ⟨p, rfl, hw⟩ := hprev
    cases had : a.isDigit with
    | false =>
      rw [subBare_cons_word hw]
      exact tokenTail_head_not_digit _ had
    | true =>
      have hdsall : ∀ x ∈ (a :: t).takeWhile Char.isDigit, x.isDigit = true :=
        fun x hx => List.mem_takeWhile_imp hx
      have hsplit : (a :: t).takeWhile Char.isDigit
          ++ (a :: t).dropWhile Char.isDigit = a :: t :=
        List.takeWhile_append_dropWhile _ _
      obtain ⟨p2, hp2, heq⟩ := subBare_digits_append
        ((a :: t).dropWhile Char.isDigit) hdsall ⟨p, rfl, hw⟩
      have hsub : subBare (some p) (a :: t) = (a :: t).takeWhile Char.isDigit
          ++ subBare (some p2) ((a :: t).dropWhile Char.isDigit) := by
        conv_lhs => rw [← hsplit]
        exact heq
      have hne : (a :: t).takeWhile Char.isDigit ≠ [] := by
        rw [List.takeWhile_cons_of_pos had]
        simp
      cases hafter : (a :: t).dropWhile Char.isDigit with
      | nil =>
        rw [hsub, hafter, subBare_nil, List.append_nil]
        exact tokenTail_all_digits hdsall
      | cons x rest2 =>
        have h4 := List.head?_dropWhile_not Char.isDigit (a :: t)
        rw [hafter] at h4
        have hxd : x.isDigit = false := h4
        rw [hsub, hafter, subBare_cons_word hp2]
        rw [tokenTail_digits_cons _ hdsall hxd hne]
        have hfail2 : tokenTail ((a :: t).takeWhile Char.isDigit
            ++ x :: rest2) = none := by
          rw [show (a :: t).takeWhile Char.isDigit ++ x :: rest2 = a :: t
            from by rw [← hafter, hsplit]]
          exact hfail
        rw [tokenTail_digits_cons _ hdsall hxd hne] at hfail2
        by_cases hxc : x = ':'
        · rw [if_pos hxc] at hfail2 ⊢
          have hlen0 : (rest2.takeWhile isClassChar).length = 0 := by
            by_contra hno
            rw [if_neg hno] at hfail2
            cases hfail2
          rw [if_pos ?_]
          cases rest2 with
          | nil =>
            rw [subBare_nil]
            rfl
          | cons y rest3 =>
            have hyc : isClassChar y = false := by
              cases hyy : isClassChar y with
              | false => rfl
              | true =>
                rw [List.takeWhile_cons_of_pos hyy] at hlen0
                simp at hlen0
            have hyd : y.isDigit = false := by
              cases hdd : y.isDigit with
              | false => rfl
              | true => exact absurd (isClassChar_of_digit hdd) (by simp [hyc])
            rw [subBare_cons_none (tryBare_of_pattern_none
              (patternBare_head_not_digit _ hyd)),
              List.takeWhile_cons_of_neg (by simp [hyc])]
            rfl
        · rw [if_neg hxc]

theorem tryToken_transfer_bare {c : Char} {cs' : List Char}
    (hfail : tryToken (c :: cs') = none) :
    tryToken (c :: subBare (some c) cs') = none := by
  by_cases hcb : c = 'b'
  case neg => exact tryToken_head_ne _ hcb
  case pos =>
  subst hcb
  cases cs' with
  | nil =>
    rw [subBare_nil]
    exact hfail
  | cons c1 cs2 =>
    rw [subBare_cons_word (by decide)]
    by_cases hc1 : c1 = 'o'
    case neg => exact tryToken_two _ hc1
    case pos =>
    subst hc1
    cases cs2 with
    | nil =>
      rw [subBare_nil]
      rfl
    | cons c2 cs3 =>
      rw [subBare_cons_word (by decide)]
      by_cases hc2 : c2 = 't'
      case neg => exact tryToken_shape_ne _ (fun hand => hc2 hand.2.2)
      case pos =>
      subst hc2
      have hfail2 : tokenTail cs3 = none := by
        have h0 : (if ('b' : Char) = 'b' ∧ ('o' : Char) = 'o' ∧
            ('t' : Char) = 't'
            then (tokenTail cs3).map (fun n => 3 + n) else none)
            = none := hfail
        rw [if_pos ⟨rfl, rfl, rfl⟩] at h0
        cases hq : tokenTail cs3 with
        | none => rfl
        | some k =>
          rw [hq] at h0
          cases h0
      show (if ('b' : Char) = 'b' ∧ ('o' : Char) = 'o' ∧ ('t' : Char) = 't'
        then (tokenTail (subBare (some 't') cs3)).map (fun n => 3 + n)
        else none) = none
      rw [if_pos ⟨rfl, rfl, rfl⟩,
        tokenTail_transfer_bare ⟨'t', rfl, by decide⟩ hfail2]
      rfl

theorem containsToken_subBare_bounded (N : Nat) :
    ∀ (cs : List Char), cs.length ≤ N → ∀ (prev : Option Char),
    containsToken cs = false →
    containsToken (subBare prev cs) = false := by
  induction N with
  | zero =>
    intro cs hlen prev hct
    have hnil : cs = [] := List.eq_nil_of_length_eq_zero (by omega)
    subst hnil
    rw [subBare_nil]
    rfl
  | succ N ih =>
    intro cs hlen prev hct
    cases cs with
    | nil =>
      rw [subBare_nil]
      rfl
    | cons c cs' =>
      cases hm : tryBare prev (c :: cs') with
      | some n =>
        rw [subBare_cons_some hm, containsToken_replBare_append]
        have hpos : 0 < n := tryBare_pos hm
        have hdropeq : (c :: cs').drop n = cs'.drop (n - 1) := by
          cases n with
          | zero => omega
          | succ m => simp [List.drop_succ_cons]
        refine ih _ ?_ _ ?_
        · have h2 : (cs'.drop (n - 1)).length = cs'.length - (n - 1) :=
            List.length_drop _ _
          simp only [List.length_cons] at hlen
          omega
        · rw [← hdropeq]
          exact containsToken_drop n hct
      | none =>
        rw [subBare_cons_none hm]
        show ((tryToken (c :: subBare (some c) cs')).isSome
          || containsToken (subBare (some c) cs')) = false
        rw [tryToken_transfer_bare (tryToken_of_containsToken hct),
          ih cs' (by
            simp only [List.length_cons] at hlen
            omega) (some c) (containsToken_tail hct)]
        rfl

theorem containsToken_subBare {cs : List Char} (prev : Option Char)
    (hct : containsToken cs = false) :
    containsToken (subBare prev cs) = false :=
  containsToken_subBare_bounded cs.length cs (Nat.le_refl _) prev hct

theorem containsBare_tail {prev : Option Char} {c : Char} {cs : List Char}
    (h : containsBare prev (c :: cs) = false) :
    containsBare (some c) cs = false := by
  have h2 : ((tryBare prev (c :: cs)).isSome || containsBare (some c) cs)
      = false := h
  simp only [Bool.or_eq_false_iff] at h2
  exact h2.2

theorem tryBare_of_containsBare {prev : Option Char} {c : Char}
    {cs : List Char} (h : containsBare prev (c :: cs) = false) :
    tryBare prev (c :: cs) = none := by
  cases ht : tryBare prev (c :: cs) with
  | none => rfl
  | some n =>
    have h2 : ((tryBare prev (c :: cs)).isSome || containsBare (some c) cs)
        = false := h
    rw [ht] at h2
    simp at h2

theorem subToken_of_not_contains {cs : List Char}
    (h : containsToken cs = false) : subToken cs = cs := by
  induction cs with
  | nil => exact subToken_nil
  | cons c cs' ih =>
    rw [subToken_cons_none (tryToken_of_containsToken h),
      ih (containsToken_tail h)]

theorem subBare_of_not_contains {cs : List Char} :
    ∀ {prev : Option Char}, containsBare prev cs = false →
    subBare prev cs = cs := by
  induction cs with
  | nil =>
    intro prev _
    exact subBare_nil prev
  | cons c cs' ih =>
    intro prev h
    rw [subBare_cons_none (tryBare_of_containsBare h),
      ih (containsBare_tail h)]

/-! ## Claim theorems -/

/-- **C1**: every event list a `runner.run` invocation successfully produces
(the normal path, the non-zero-exit path, and the zero-exit-without-terminal
path are exactly the `.ok` results of `run_impl`) contains exactly one
`Completed`, that `Completed` is the last element, and the list is finite by
construction.  The result is independent of the prompt, which only shapes
the spawn. -/
theorem run_exactly_one_completed {D : Type} (R : JsonlRunner D)
    (resume : Option ResumeToken) (lines : List (JsonLine D)) (rc : Int)
    (evs : List TakopiEvent)
    (h : runImpl R resume lines rc = .ok evs) :
    evs.countP isCompleted = 1 ∧
    ∃ pre last, evs = pre ++ [last] ∧ isCompleted last = true ∧
      ∀ e ∈ pre, isCompleted e = false := by
  suffices hdec : ∃ pre last, evs = pre ++ [last] ∧ isCompleted last = true ∧
      ∀ e ∈ pre, isCompleted e = false by
    refine ⟨?_, hdec⟩
    obtain ⟨pre, last, hout, hlast, hpre⟩ := hdec
    rw [hout, List.countP_append]
    have hzero : pre.countP isCompleted = 0 :=
      List.countP_eq_zero.mpr (fun e he => by simp [hpre e he])
    simp [hzero, hlast]
  unfold runImpl at h
  cases hrun : runLines R resume lines 0 none false with
  | error e =>
    rw [hrun] at h
    cases h
  | ok o =>
    obtain ⟨out, seq, found, dd⟩ := o
    rw [hrun] at h
    have hspec := runLines_spec R resume lines 0 none out seq found dd hrun
    cases dd with
    | true =>
      simp only [if_true, Except.ok.injEq] at h
      rw [← h]
      exact hspec.2 rfl
    | false =>
      simp only [Bool.false_eq_true, if_false] at h
      have hclean := hspec.1 rfl
      by_cases hrc : rc ≠ 0
      · rw [if_pos hrc] at h
        simp only [Except.ok.injEq] at h
        refine ⟨out ++
          [(noteEvent R.engine R.tag
            (R.tag ++ " failed (rc=" ++ toString rc ++ ").") seq false []).1],
          TakopiEvent.completed R.engine false "" (orResume found resume)
            (some (R.tag ++ " failed (rc=" ++ toString rc ++ ").")), ?_, rfl, ?_⟩
        · rw [← h]
          simp [processErrorEvents, noteEvent]
        · intro e hmem
          rcases List.mem_append.mp hmem with hm | hm
          · exact hclean e hm
          · rcases List.mem_singleton.mp hm with rfl
            rfl
      · rw [if_neg hrc] at h
        simp only [Except.ok.injEq] at h
        refine ⟨out,
          TakopiEvent.completed R.engine false "" (orResume found resume)
            (some (R.tag ++ " finished without a result event")), ?_, rfl,
          hclean⟩
        rw [← h]
        rfl

/-- **C1 witness**: the happy-path run of spec §8(a), one decoded line whose
translation yields a successful `Completed`, child exit 0. -/
theorem run_exactly_one_completed_witness :
    ([TakopiEvent.completed "codex" true "Hi!" none none] : List TakopiEvent).countP
        isCompleted = 1 ∧
    ∃ pre last,
      ([TakopiEvent.completed "codex" true "Hi!" none none] : List TakopiEvent)
        = pre ++ [last] ∧ isCompleted last = true ∧
      ∀ e ∈ pre, isCompleted e = false :=
  run_exactly_one_completed completingRunner none [.decoded "x" ()] 0
    [TakopiEvent.completed "codex" true "Hi!" none none] (by rfl)

/-- **C4**: the session-identity validation of `handle_started_event`: a
supplied-resume mismatch is a fatal error (and a fatal error from a
`SessionStarted` aborts the emit loop, so no `Completed` is yielded — a
`runLines` error makes the whole `run_impl` an error); an equal repeat of the
found session is swallowed; a different session id after one was found is a
fatal error; the first `SessionStarted` is recorded as the found session and
is yielded. -/
theorem session_started_validation {D : Type} (R : JsonlRunner D) :
    (∀ (eng : String) (r exp : ResumeToken) (found : Option ResumeToken),
      r ≠ exp →
      ∃ msg, handleStartedEvent R eng r (some exp) found = .error msg)
    ∧ (∀ (r f : ResumeToken) (expected : Option ResumeToken),
        expected = none ∨ expected = some r →
        handleStartedEvent R R.engine r expected (some f) =
          (if r ≠ f then .error (mismatchMessage R.tag r.value f.value)
           else .ok (f, false)))
    ∧ (∀ (r : ResumeToken) (expected : Option ResumeToken),
        expected = none ∨ expected = some r →
        handleStartedEvent R R.engine r expected none = .ok (r, true))
    ∧ (∀ (eng : String) (r : ResumeToken) (title : Option String)
        (rest : List TakopiEvent) (expected found : Option ResumeToken)
        (msg : String),
        handleStartedEvent R eng r expected found = .error msg →
        emitEvents R expected (.session eng r title :: rest) found = .error msg)
    ∧ (∀ (r : ResumeToken) (title : Option String) (rest : List TakopiEvent)
        (expected : Option ResumeToken),
        expected = none ∨ expected = some r →
        emitEvents R expected (.session R.engine r title :: rest) (some r) =
          emitEvents R expected rest (some r))
    ∧ (∀ (resume : Option ResumeToken) (lines : List (JsonLine D)) (rc : Int)
        (msg : String),
        runLines R resume lines 0 none false = .error msg →
        runImpl R resume lines rc = .error msg) := by
  refine ⟨?_, ?_, ?_, ?_, ?_, ?_⟩
  · intro eng r exp found hne
    by_cases heng : eng ≠ R.engine
    · exact ⟨R.tag ++ " emitted session token for engine " ++ eng,
        by simp [handleStartedEvent, heng]⟩
    · exact ⟨mismatchMessage R.tag r.value exp.value,
        by simp [handleStartedEvent, heng, hne]⟩
  · intro r f expected hexp
    rcases hexp with rfl | rfl
    · simp [handleStartedEvent, handleStartedFound]
    · simp [handleStartedEvent, handleStartedFound]
  · intro r expected hexp
    rcases hexp with rfl | rfl
    · simp [handleStartedEvent, handleStartedFound]
    · simp [handleStartedEvent, handleStartedFound]
  · intro eng r title rest expected found msg hmsg
    simp only [emitEvents]
    rw [hmsg]
  · intro r title rest expected hexp
    have hh : handleStartedEvent R R.engine r expected (some r) = .ok (r, false) := by
      rcases hexp with rfl | rfl <;>
        simp [handleStartedEvent, handleStartedFound]
    simp only [emitEvents]
    rw [hh]
    rfl
  · intro resume lines rc msg hmsg
    unfold runImpl
    rw [hmsg]

/-- **C4 witness**: the validation outcomes at concrete tokens — a mismatch
with the supplied resume errors; an equal repeat after the first
`SessionStarted` is swallowed; the first `SessionStarted` is recorded and
marked for emission. -/
theorem session_started_validation_witness :
    (∃ msg, handleStartedEvent quietRunner "codex" ⟨"codex", "sess-Y"⟩
        (some ⟨"codex", "sess-X"⟩) none = .error msg)
    ∧ handleStartedEvent quietRunner "codex" ⟨"codex", "s"⟩ none
        (some ⟨"codex", "s"⟩) = .ok (⟨"codex", "s"⟩, false)
    ∧ handleStartedEvent quietRunner "codex" ⟨"codex", "s"⟩ none none =
        .ok (⟨"codex", "s"⟩, true) := by
  refine ⟨(session_started_validation quietRunner).1 "codex" ⟨"codex", "sess-Y"⟩
      ⟨"codex", "sess-X"⟩ none (by decide), ?_, ?_⟩
  · have h := (session_started_validation quietRunner).2.1 ⟨"codex", "s"⟩
      ⟨"codex", "s"⟩ none (Or.inl rfl)
    simpa using h
  · exact (session_started_validation quietRunner).2.2.1 ⟨"codex", "s"⟩ none
      (Or.inl rfl)

/-- **C5**: when the child exits non-zero after stdout EOF with no `Completed`
yielded, `run_impl` appends exactly two events: the warning note, then the
synthetic `Completed` with `ok = false`, empty answer, resume
`found_session or resume`, and an error message containing `rc={code}`. -/
theorem nonzero_exit_synthesizes {D : Type} (R : JsonlRunner D)
    (resume : Option ResumeToken) (lines : List (JsonLine D)) (rc : Int)
    (out : List TakopiEvent) (seq : Nat) (found : Option ResumeToken)
    (h : runLines R resume lines 0 none false = .ok (out, seq, found, false))
    (hrc : rc ≠ 0) :
    runImpl R resume lines rc = .ok (out ++
      [(noteEvent R.engine R.tag
          (R.tag ++ " failed (rc=" ++ toString rc ++ ").") seq false []).1,
       TakopiEvent.completed R.engine false "" (orResume found resume)
         (some (R.tag ++ " failed (rc=" ++ toString rc ++ ")."))])
    ∧ List.IsInfix ("rc=" ++ toString rc).toList
        (R.tag ++ " failed (rc=" ++ toString rc ++ ").").toList := by
  constructor
  · unfold runImpl
    rw [h]
    simp only [Bool.false_eq_true, if_false, if_pos hrc]
    rfl
  · refine ⟨(R.tag ++ " failed (").toList, (").").toList, ?_⟩
    have happ : ∀ a b : String, (a ++ b).toList = a.toList ++ b.toList :=
      fun a b => rfl
    have hsplit : (" failed (rc=" : String).toList =
        (" failed (" : String).toList ++ ("rc=" : String).toList := rfl
    simp only [happ, hsplit, List.append_assoc]

/-- **C5 witness**: empty stdout then exit code 2: the run yields exactly the
warning note and the synthetic failure `Completed` with the `rc=2`
message. -/
theorem nonzero_exit_synthesizes_witness :
    runImpl quietRunner none ([] : List (JsonLine Unit)) 2 = .ok ([] ++
      [(noteEvent quietRunner.engine quietRunner.tag
          (quietRunner.tag ++ " failed (rc=" ++ toString (2 : Int) ++ ").")
          0 false []).1,
       TakopiEvent.completed quietRunner.engine false ""
         (orResume none none)
         (some (quietRunner.tag ++ " failed (rc=" ++ toString (2 : Int) ++ ")."))])
    ∧ List.IsInfix ("rc=" ++ toString (2 : Int)).toList
        (quietRunner.tag ++ " failed (rc=" ++ toString (2 : Int) ++ ").").toList :=
  nonzero_exit_synthesizes quietRunner none [] 2 [] 0 none (by rfl) (by decide)

/-- **C7**: whenever `migrate_config` succeeds, applying it again to the
migrated tree applies no migrations and leaves the tree unchanged.  This
covers in particular every legacy tree with only top-level
`bot_token`/`chat_id` and/or a `transports.telegram.topics.mode` field. -/
theorem migrate_config_idempotent (cfg cfg' : List (String × TomlVal))
    (applied : List String) (h : migrateConfig cfg = .ok (cfg', applied)) :
    migrateConfig cfg' = .ok (cfg', []) := by
  unfold migrateConfig at h
  cases h1 : migrateLegacyTelegram cfg with
  | error e =>
    rw [h1] at h
    cases h
  | ok p1 =>
    obtain ⟨cfg1, b1⟩ := p1
    rw [h1] at h
    have hh : (match migrateTopicsScope cfg1 with
        | Except.error e => Except.error e
        | Except.ok (config, b2) =>
          Except.ok (config,
            (if b1 = true then ["legacy-telegram"] else []) ++
            if b2 = true then ["topics-scope"] else [])) =
        Except.ok (cfg', applied) := h
    clear h
    cases h2 : migrateTopicsScope cfg1 with
    | error e =>
      rw [h2] at hh
      cases hh
    | ok p2 =>
      obtain ⟨cfg2, b2⟩ := p2
      rw [h2] at hh
      simp only [Except.ok.injEq, Prod.mk.injEq] at hh
      obtain ⟨hcfg, _⟩ := hh
      subst hcfg
      have hleg := migrateLegacyTelegram_flag h1
      have htop := migrateTopicsScope_flag h2
      have hbt : lookupA cfg2 "bot_token" = none := by
        rw [htop.2.2.1]
        cases b1 with
        | true => exact (hleg.2 rfl).1
        | false =>
          obtain ⟨hcfg1, hcond⟩ := hleg.1 rfl
          rw [hcfg1]
          cases hl : lookupA cfg "bot_token" with
          | none => rfl
          | some v =>
            exfalso
            apply hcond
            simp [hl]
      have hcid : lookupA cfg2 "chat_id" = none := by
        rw [htop.2.2.2]
        cases b1 with
        | true => exact (hleg.2 rfl).2
        | false =>
          obtain ⟨hcfg1, hcond⟩ := hleg.1 rfl
          rw [hcfg1]
          cases hl : lookupA cfg "chat_id" with
          | none => rfl
          | some v =>
            exfalso
            apply hcond
            simp [hl]
      have hlegacy2 : migrateLegacyTelegram cfg2 = .ok (cfg2, false) := by
        unfold migrateLegacyTelegram
        rw [hbt, hcid]
        simp
      have htopics2 : migrateTopicsScope cfg2 = .ok (cfg2, false) := by
        cases b2 with
        | false =>
          have hc := htop.1 rfl
          rw [hc] at h2 ⊢
          exact h2
        | true =>
          obtain ⟨tr, tel, tp, htr, htel, htp, hmode⟩ := htop.2.1 rfl
          unfold migrateTopicsScope
          simp [htr, htel, htp, hmode]
      unfold migrateConfig
      simp [hlegacy2, htopics2]

/-- **C7 witness**: the legacy config tree of spec §8(f) — top-level
`bot_token`/`chat_id` and `topics.mode = "per_project_chat"` — after one
migration re-migrates to itself with no applied migrations. -/
theorem migrate_config_idempotent_witness :
    migrateConfig
      [("transports", .table [("telegram", .table
          [("topics", .table [("scope", .str "projects")]),
           ("bot_token", .str "T"), ("chat_id", .int 42)])]),
       ("transport", .str "telegram")]
      = .ok (
        [("transports", .table [("telegram", .table
            [("topics", .table [("scope", .str "projects")]),
             ("bot_token", .str "T"), ("chat_id", .int 42)])]),
         ("transport", .str "telegram")], []) :=
  migrate_config_idempotent
    [("bot_token", .str "T"), ("chat_id", .int 42),
     ("transports", .table [("telegram", .table
        [("topics", .table [("mode", .str "per_project_chat")])])])]
    [("transports", .table [("telegram", .table
        [("topics", .table [("scope", .str "projects")]),
         ("bot_token", .str "T"), ("chat_id", .int 42)])]),
     ("transport", .str "telegram")]
    ["legacy-telegram", "topics-scope"] (by rfl)

/-- **C8 counterexample**: the cited `ExecProgressRenderer` bounds its
`recent` deque at 4 by default (`max_lines: int = 4`), not 5: feeding five
distinct lines to a default-constructed renderer retains only the last
four, evicting the oldest, which contradicts a default bound of 5. -/
theorem renderer_default_bound_counterexample :
    runRenderer (fun s : String => some s) defaultMaxLines
        ["l1", "l2", "l3", "l4", "l5"] = ["l2", "l3", "l4", "l5"]
    ∧ defaultMaxLines = 4 := by
  constructor
  · rfl
  · rfl

/-- **C8** (amended): for every rendered-line producer and every configured
bound, the renderer retains at most `max_lines` lines (default 4); when the
deque is full, an append evicts the oldest retained line. -/
theorem renderer_recent_bound {E : Type} (renderLine : E → Option String)
    (maxlen : Nat) (events : List E) :
    (runRenderer renderLine maxlen events).length ≤ maxlen
    ∧ (∀ (recent : List String) (x : String), recent.length = maxlen →
        0 < maxlen → dequePush maxlen recent x = recent.tail ++ [x]) := by
  constructor
  · suffices hstep : ∀ (evs : List E) (recent : List String),
        recent.length ≤ maxlen →
        (evs.foldl (fun recent e => (noteEventLine renderLine maxlen recent e).2)
          recent).length ≤ maxlen by
      exact hstep events [] (by simp)
    intro evs
    induction evs with
    | nil =>
      intro recent h
      simpa using h
    | cons e t ih =>
      intro recent h
      rw [List.foldl_cons]
      apply ih
      unfold noteEventLine
      cases renderLine e with
      | none => exact h
      | some line0 =>
        by_cases h0 : line0 = ""
        · simpa [h0] using h
        · simp only [h0, if_false]
          by_cases h1 : strip line0 = ""
          · simpa [h1] using h
          · simp only [h1, if_false]
            by_cases h2 : recent ≠ [] ∧ recent.getLast? = some (strip line0)
            · simpa [h2] using h
            · simp only [h2, if_false]
              show (dequePush maxlen recent (strip line0)).length ≤ maxlen
              unfold dequePush
              by_cases hl : maxlen < (recent ++ [strip line0]).length
              · rw [if_pos hl, List.length_drop]
                omega
              · rw [if_neg hl]
                simp only [List.length_append, List.length_singleton] at hl ⊢
                omega
  · intro recent x hlen hpos
    unfold dequePush
    have hlt : maxlen < (recent ++ [x]).length := by
      simp [hlen]
    rw [if_pos hlt]
    have hone : (recent ++ [x]).length - maxlen = 1 := by
      simp [hlen]
    rw [hone, List.drop_append_of_le_length (by omega), List.drop_one]

/-- **C8 witness**: with the default bound 4, five distinct lines leave four
retained, and a push onto a full deque evicts the head. -/
theorem renderer_recent_bound_witness :
    (runRenderer (fun s : String => some s) 4
        ["a", "b", "c", "d", "e"]).length ≤ 4
    ∧ dequePush 4 ["a", "b", "c", "d"] "e" = ["a", "b", "c", "d"].tail ++ ["e"] :=
  ⟨(renderer_recent_bound (fun s : String => some s) 4
      ["a", "b", "c", "d", "e"]).1,
   (renderer_recent_bound (fun s : String => some s) 4 []).2
      ["a", "b", "c", "d"] "e" (by decide) (by decide)⟩

/-- **C6**: `sync_startup_cwd` returns true exactly when a different cwd was
previously stored; whenever it returns true the chats map is empty afterwards;
and after any call the stored cwd equals the normalized path. -/
theorem sync_startup_cwd_spec (st : ChatSessionsState) (normalized : String) :
    ((syncStartupCwd st normalized).1 = true ↔
      ∃ p, st.cwd = some p ∧ p ≠ normalized)
    ∧ ((syncStartupCwd st normalized).1 = true →
        (syncStartupCwd st normalized).2.chats = [])
    ∧ (syncStartupCwd st normalized).2.cwd = some normalized := by
  obtain ⟨ver, cwd, chats⟩ := st
  cases cwd with
  | none => simp [syncStartupCwd]
  | some p =>
    by_cases hp : p = normalized
    · subst hp
      simp [syncStartupCwd]
    · simp [syncStartupCwd, hp]

/-- **C10**: on an already-migrated store, `get_session_resume` returns `NONE`
when the chat entry is absent, when the engine has no active pointer, and when
the active pointer is dangling (no matching history entry). -/
theorem get_session_resume_dangling (st : ChatSessionsState) (chat_id : Int)
    (owner_id : Option Int) (engine : String) (now : Nat)
    (hmig : ∀ p ∈ st.chats, p.2.sessions = none) :
    (lookupA st.chats (chatKey chat_id owner_id) = none →
      getSessionResume st chat_id owner_id engine now = none)
    ∧ (∀ chat, lookupA st.chats (chatKey chat_id owner_id) = some chat →
        lookupA chat.active engine = none →
        getSessionResume st chat_id owner_id engine now = none)
    ∧ (∀ chat rid, lookupA st.chats (chatKey chat_id owner_id) = some chat →
        lookupA chat.active engine = some rid →
        lookupA chat.history rid = none →
        getSessionResume st chat_id owner_id engine now = none) := by
  refine ⟨?_, ?_, ?_⟩
  · intro h
    simp only [getSessionResume, migrateIfNeeded_id hmig, h]
  · intro chat hchat hact
    simp only [getSessionResume, migrateIfNeeded_id hmig, hchat, hact]
  · intro chat rid hchat hact hhist
    simp only [getSessionResume, migrateIfNeeded_id hmig, hchat, hact]
    by_cases hrid : rid = ""
    · simp [hrid]
    · simp [hrid, hhist]

/-- **C10 witness**: a concrete store whose only chat has a dangling active
pointer; `get_session_resume` returns `NONE` there. -/
theorem get_session_resume_dangling_witness :
    getSessionResume
      ⟨2, none, [("7:chat",
        { history := [], active := [("codex", "gone")], sessions := none })]⟩
      7 none "codex" 0 = none := by
  exact (get_session_resume_dangling
    ⟨2, none, [("7:chat",
      { history := [], active := [("codex", "gone")], sessions := none })]⟩
    7 none "codex" 0 (by intro p hp; simp at hp; rw [hp])).2.2
    { history := [], active := [("codex", "gone")], sessions := none }
    "gone" (by rfl) (by rfl) (by rfl)

/-- **C2 counterexample**: pruning does not continue past the oldest
`n - MAX_SESSIONS_PER_CHAT` candidates.  With 20 stored sessions whose
`updated_at` (100) lies in the future of the call time (50), the 21st
`set_session_resume` makes the freshly-set session the oldest candidate,
skips it because it is active, and leaves 21 > 20 sessions for the engine. -/
theorem set_session_resume_prune_counterexample :
    countEngine
      (setSessionResume
        ⟨2, some "/w",
          [("1:chat",
            { history := (List.range 20).map (fun i =>
                ("s" ++ toString i,
                 { resume := "s" ++ toString i, engine := "codex",
                   title := none, first_message := none,
                   created_at := 0, updated_at := 100 })),
              active := [], sessions := none })]⟩
        1 none ⟨"codex", "t-new"⟩ none 50 "/w")
      "1:chat" "codex" = 21 ∧ MAX_SESSIONS_PER_CHAT = 20 := by
  constructor
  · decide
  · rfl

/-- **C2** (amended): immediately after `set_session_resume` the engine's
history count is at most `MAX_SESSIONS_PER_CHAT`, *provided* every other
session of that engine is strictly older than the call time (as a monotone
clock guarantees); pruning never removes the just-activated session. -/
theorem set_session_resume_prune_bound (st : ChatSessionsState) (chat_id : Int)
    (owner_id : Option Int) (token : ResumeToken) (fm : Option String)
    (now : Nat) (processCwd : String)
    (hsess : ∀ p ∈ st.chats, p.2.sessions = none)
    (hchat : ∀ chat, lookupA st.chats (chatKey chat_id owner_id) = some chat →
      (chat.history.map Prod.fst).Nodup ∧
      ∀ p ∈ chat.history, p.1 ≠ token.value → p.2.engine = token.engine →
        p.2.updated_at < now) :
    countEngine (setSessionResume st chat_id owner_id token fm now processCwd)
        (chatKey chat_id owner_id) token.engine ≤ MAX_SESSIONS_PER_CHAT
    ∧ ∃ chat', lookupA (setSessionResume st chat_id owner_id token fm now
          processCwd).chats (chatKey chat_id owner_id) = some chat' ∧
        lookupA chat'.history token.value ≠ none := by
  have hmig : migrateIfNeeded now st = st := migrateIfNeeded_id hsess
  set key := chatKey chat_id owner_id with hkey
  set st2 := (if st.cwd = none then { st with cwd := some processCwd } else st :
    ChatSessionsState) with hst2
  have hchats2 : st2.chats = st.chats := by
    rw [hst2]
    split <;> rfl
  set chat0 := ((lookupA st2.chats key).getD {} : ChatState) with hchat0
  set chatU := upsertSession chat0 token fm now with hchatU
  set chat2 := pruneSessions chatU token.engine with hchat2
  have hresult : setSessionResume st chat_id owner_id token fm now processCwd
      = { st2 with chats := setA st2.chats key chat2 } := by
    simp only [setSessionResume, hmig]
  have hchat0facts : (chat0.history.map Prod.fst).Nodup ∧
      ∀ p ∈ chat0.history, p.1 ≠ token.value → p.2.engine = token.engine →
        p.2.updated_at < now := by
    rw [hchat0]
    cases hc : lookupA st2.chats key with
    | none =>
      constructor
      · simp [Option.getD]
      · intro p hp
        simp [Option.getD] at hp
    | some c =>
      have hcc : lookupA st.chats key = some c := by
        rw [← hchats2]
        exact hc
      simpa [Option.getD] using hchat c hcc
  have hnodupU : (chatU.history.map Prod.fst).Nodup := by
    rw [hchatU]
    exact keys_nodup_setA hchat0facts.1
  have hactU : lookupA chatU.active token.engine = some token.value := by
    rw [hchatU, active_upsertSession]
    exact lookupA_setA_self ..
  have hothersU : ∀ p ∈ chatU.history, p.1 ≠ token.value →
      p.2.engine = token.engine → p.2.updated_at < now := by
    intro p hp hne heng
    rw [hchatU] at hp
    rcases mem_setA hp with h' | h'
    · exact absurd (by rw [h'] : p.1 = token.value) hne
    · exact hchat0facts.2 p h' hne heng
  have htvU : ∀ p ∈ chatU.history, p.1 = token.value →
      now ≤ p.2.updated_at := by
    intro p hp heq
    rw [hchatU] at hp
    have hpeq := mem_setA_self_key hchat0facts.1 hp heq
    rw [hpeq]
    simp [upsertInfo_updated_at]
  have hbound := pruneSessions_count_le chatU token.engine token.value now
    hnodupU hactU hothersU htvU
  have hhist : lookupA chat2.history token.value
      = some (upsertInfo chat0 token fm now) := by
    rw [hchat2, lookupA_pruneSessions_history chatU token.engine token.value hactU,
      hchatU, lookupA_upsertSession_self]
  constructor
  · rw [hresult]
    simp only [countEngine, lookupA_setA_self]
    rw [← hchat2] at hbound
    exact hbound
  · refine ⟨chat2, ?_, ?_⟩
    · rw [hresult]
      exact lookupA_setA_self ..
    · rw [hhist]
      intro h
      cases h

/-- **C2 witness**: the prune scenario of spec §8(e): 20 sessions with
distinct past timestamps, then a 21st `set_session_resume`; the bound holds
and the new active session survives. -/
theorem set_session_resume_prune_bound_witness :
    countEngine
      (setSessionResume
        ⟨2, some "/w",
          [("1:chat",
            { history := (List.range 20).map (fun i =>
                ("s" ++ toString i,
                 { resume := "s" ++ toString i, engine := "codex",
                   title := none, first_message := none,
                   created_at := 0, updated_at := i + 1 })),
              active := [], sessions := none })]⟩
        1 none ⟨"codex", "t-new"⟩ none 50 "/w")
      "1:chat" "codex" ≤ MAX_SESSIONS_PER_CHAT := by
  refine (set_session_resume_prune_bound
    ⟨2, some "/w",
      [("1:chat",
        { history := (List.range 20).map (fun i =>
            ("s" ++ toString i,
             { resume := "s" ++ toString i, engine := "codex",
               title := none, first_message := none,
               created_at := 0, updated_at := i + 1 })),
          active := [], sessions := none })]⟩
    1 none ⟨"codex", "t-new"⟩ none 50 "/w" ?_ ?_).1
  · intro p hp
    simp only [List.mem_singleton] at hp
    rw [hp]
  · intro chat hc
    have hceq : _ = chat := Option.some.inj hc
    rw [← hceq]
    exact ⟨by decide, by decide⟩

/-- **C3 counterexample**: the claim fails for a `ResumeToken` whose value is
the empty string: `set_session_resume` stores it, but `get_session_resume`
treats the empty active resume id as falsy and returns `NONE`, not the
token. -/
theorem set_then_get_empty_value_counterexample :
    getSessionResume
      (setSessionResume ⟨2, none, []⟩ 1 none ⟨"codex", ""⟩ none 5 "/w")
      1 none "codex" 5 = none
    ∧ (none : Option ResumeToken) ≠ some ⟨"codex", ""⟩ := by
  constructor
  · rfl
  · intro h
    cases h

/-- **C3** (amended): for every token with a *non-empty* value, on a store
whose history entries are keyed by their own resume id, `get_session_resume`
immediately after `set_session_resume` returns exactly the token that was
set. -/
theorem set_then_get_roundtrip (st : ChatSessionsState) (chat_id : Int)
    (owner_id : Option Int) (token : ResumeToken) (fm : Option String)
    (now now' : Nat) (processCwd : String)
    (hval : token.value ≠ "")
    (hwf : ∀ c ∈ st.chats, HistoryWF c.2.history) :
    getSessionResume
      (setSessionResume st chat_id owner_id token fm now processCwd)
      chat_id owner_id token.engine now' = some token := by
  have hwf1 : ∀ c ∈ (migrateIfNeeded now st).chats, HistoryWF c.2.history :=
    historyWF_migrateIfNeeded hwf
  have hsess1 := sessions_none_migrateIfNeeded now st
  set st1 := migrateIfNeeded now st with hst1
  set st2 := (if st1.cwd = none then { st1 with cwd := some processCwd } else st1 :
    ChatSessionsState) with hst2
  have hchats2 : st2.chats = st1.chats := by
    rw [hst2]
    split <;> rfl
  set key := chatKey chat_id owner_id with hkey
  set chat0 := ((lookupA st2.chats key).getD {} : ChatState) with hchat0
  set chatU := upsertSession chat0 token fm now with hchatU
  set chat2 := pruneSessions chatU token.engine with hchat2
  have hresult : setSessionResume st chat_id owner_id token fm now processCwd
      = { st2 with chats := setA st2.chats key chat2 } := rfl
  rw [hresult]
  -- the written store is fully migrated
  have hchat0sess : chat0.sessions = none := by
    rw [hchat0]
    cases hc : lookupA st2.chats key with
    | none => rfl
    | some c =>
      have : (key, c) ∈ st1.chats := by
        rw [← hchats2]
        exact lookupA_mem hc
      exact hsess1 (key, c) this
  have hmigset : ∀ p ∈ (setA st2.chats key chat2), p.2.sessions = none := by
    intro p hp
    rcases mem_setA hp with h' | h'
    · rw [h']
      rw [hchat2, sessions_pruneSessions, hchatU, sessions_upsertSession]
      exact hchat0sess
    · rw [hchats2] at h'
      exact hsess1 p h'
  have hwfchat0 : HistoryWF chat0.history := by
    rw [hchat0]
    cases hc : lookupA st2.chats key with
    | none => intro p hp; cases hp
    | some c =>
      have : (key, c) ∈ st1.chats := by
        rw [← hchats2]
        exact lookupA_mem hc
      exact hwf1 (key, c) this
  have hact : lookupA chat2.active token.engine = some token.value := by
    rw [hchat2, active_pruneSessions, hchatU, active_upsertSession]
    exact lookupA_setA_self ..
  have hactU : lookupA chatU.active token.engine = some token.value := by
    rw [hchatU, active_upsertSession]
    exact lookupA_setA_self ..
  have hhist : lookupA chat2.history token.value
      = some (upsertInfo chat0 token fm now) := by
    rw [hchat2, lookupA_pruneSessions_history chatU token.engine token.value hactU,
      hchatU, lookupA_upsertSession_self]
  have hresume : (upsertInfo chat0 token fm now).resume = token.value :=
    upsertInfo_resume chat0 token fm now
      (fun ex hex => hwfchat0 (token.value, ex) (lookupA_mem hex))
  simp only [getSessionResume]
  rw [migrateIfNeeded_id hmigset]
  simp only [lookupA_setA_self, hact, hval, if_false, hhist, hresume]

/-- **C3 witness**: the amended round-trip law at a concrete store and
token. -/
theorem set_then_get_roundtrip_witness :
    getSessionResume
      (setSessionResume ⟨2, none, []⟩ 1 none ⟨"codex", "sess-ABC"⟩
        (some "hello") 5 "/w")
      1 none "codex" 6 = some ⟨"codex", "sess-ABC"⟩ :=
  set_then_get_roundtrip ⟨2, none, []⟩ 1 none ⟨"codex", "sess-ABC"⟩
    (some "hello") 5 6 "/w" (by decide) (by intro c hc; cases hc)

/-- C9: the redaction filter (`RedactTokenFilter.filter`) never drops a
record — it returns `True` both when message formatting raises and when it
succeeds; on success the emitted message is exactly the message with every
`bot\\d+:[A-Za-z0-9_-]+` match replaced by `"bot[REDACTED]"` and then every
remaining `\\b\\d+:[A-Za-z0-9_-]{10,}\\b` match replaced by
`"[REDACTED_TOKEN]"`; the result contains no residual match of either
pattern, and applying the filter a second time changes nothing. -/
theorem redact_filter_spec (m : String) :
    (redactFilter (some m)).1 = true ∧
    redactFilter none = (true, none) ∧
    (redactFilter (some m)).2 = some ⟨subBare none (subToken m.data)⟩ ∧
    containsToken (redactMessage m).data = false ∧
    containsBare none (redactMessage m).data = false ∧
    redactMessage (redactMessage m) = redactMessage m ∧
    redactFilter (some (redactMessage m))
      = (true, some (redactMessage m)) := by
  have h1 : containsToken (subBare none (subToken m.data)) = false :=
    containsToken_subBare none (containsToken_subToken m.data)
  have h2 : containsBare none (subBare none (subToken m.data)) = false :=
    containsBare_subBare (subToken m.data) none
  have hid : redactMessage (redactMessage m) = redactMessage m := by
    show (⟨subBare none (subToken (subBare none (subToken m.data)))⟩ : String)
      = ⟨subBare none (subToken m.data)⟩
    rw [subToken_of_not_contains h1, subBare_of_not_contains h2]
  refine ⟨rfl, rfl, rfl, h1, h2, hid, ?_⟩
  show (true, some (redactMessage (redactMessage m)))
    = (true, some (redactMessage m))
  rw [hid]

end Takopi
